import Mathlib

/-!
Verification development for the quale-core string utilities
(`src/strings.ts` together with the code-point classifiers of
`codes.ts`).  Strings are modelled as lists of UTF-16 code units
(`Str := List Nat`), exactly as JavaScript indexes them; `codePointAt`
combines a high/low surrogate pair into one scalar value.

The `regexes` module imported by `strings.ts` is not part of the
sources; the line-break normalizer, the ANSI-sequence scanner and the
background-color matcher are modelled from the specification (see the
doc comments marked "Modelled from the spec").  Everything else is a
direct translation of the TypeScript source.
-/

namespace Quale

/-- A JavaScript string, as its list of UTF-16 code units. -/
abbrev Str := List Nat

/-- Whether a code unit is a UTF-16 high surrogate. -/
def isHighUnit (u : Nat) : Bool := 0xD800 ≤ u ∧ u ≤ 0xDBFF

/-- Whether a code unit is a UTF-16 low surrogate. -/
def isLowUnit (u : Nat) : Bool := 0xDC00 ≤ u ∧ u ≤ 0xDFFF

/-- JavaScript `String.prototype.codePointAt` at the start of the given
suffix: a high surrogate followed by a low surrogate yields the combined
scalar value, anything else yields the unit itself. -/
def codePointAt : Str → Nat
  | [] => 0
  | [u] => u
  | u :: v :: _ =>
    if isHighUnit u ∧ isLowUnit v then
      0x10000 + (u - 0xD800) * 0x400 + (v - 0xDC00)
    else u

/-- A JavaScript number argument, as far as the `breakLine` guard can
distinguish it: an integer, positive or negative infinity, `NaN`, or a
finite non-integer. -/
inductive JSNum where
  | int (n : Int)
  | posInf
  | negInf
  | nan
  | frac (floor : Int)
deriving DecidableEq

/-! ## Code point classifiers (`codes.ts`) -/

/-- Whether a codepoint represents a breaking space (`isBreakingSpace`). -/
def isBreakingSpace (cp : Nat) : Bool :=
  cp = 0x20 ∨ cp = 0x1680 ∨ (0x2000 ≤ cp ∧ cp ≤ 0x200A) ∨ cp = 0x205F ∨ cp = 0x3000

/-- Diacritics are always added after the main character (`isCombining`). -/
def isCombining (cp : Nat) : Bool := 0x300 ≤ cp ∧ cp ≤ 0x36F

/-- Control codes are not visually represented (`isControl`). -/
def isControl (cp : Nat) : Bool := cp ≤ 0x1F ∨ (0x7F ≤ cp ∧ cp ≤ 0x9F)

/-- Whether a codepoint represents a non-breaking space (`isNonBreakingSpace`). -/
def isNonBreakingSpace (cp : Nat) : Bool := cp = 0xA0 ∨ cp = 0x202F

/-- Whether a codepoint represents a space (`isSpace`). -/
def isSpace (cp : Nat) : Bool := isNonBreakingSpace cp || isBreakingSpace cp

/-- Surrogates come in pairs; the classifier fires on any scalar value
above the basic multilingual plane (`isSurrogate`). -/
def isSurrogate (cp : Nat) : Bool := 0xFFFF < cp

/-- East-Asian fullwidth classification (`isFullwidth`). -/
def isFullwidth (cp : Nat) : Bool :=
  0x1100 ≤ cp ∧ (
    cp ≤ 0x115F ∨
    cp = 0x2329 ∨
    cp = 0x232A ∨
    (0x2E80 ≤ cp ∧ cp ≤ 0x3247 ∧ cp ≠ 0x303F) ∨
    (0x3250 ≤ cp ∧ cp ≤ 0x4DBF) ∨
    (0x4E00 ≤ cp ∧ cp ≤ 0xA4C6) ∨
    (0xA960 ≤ cp ∧ cp ≤ 0xA97C) ∨
    (0xAC00 ≤ cp ∧ cp ≤ 0xD7A3) ∨
    (0xF900 ≤ cp ∧ cp ≤ 0xFAFF) ∨
    (0xFE10 ≤ cp ∧ cp ≤ 0xFE19) ∨
    (0xFE30 ≤ cp ∧ cp ≤ 0xFE6B) ∨
    (0xFF01 ≤ cp ∧ cp ≤ 0xFF60) ∨
    (0xFFE0 ≤ cp ∧ cp ≤ 0xFFE6) ∨
    (0x1B000 ≤ cp ∧ cp ≤ 0x1B001) ∨
    (0x1F200 ≤ cp ∧ cp ≤ 0x1F251) ∨
    (0x20000 ≤ cp ∧ cp ≤ 0x3FFFD))

/-- Enumerated dash/hyphen code points (`isBreakingDash`). -/
def isBreakingDash (cp : Nat) : Bool :=
  cp = 0x2D ∨ cp = 0x58A ∨ cp = 0x5BE ∨ cp = 0x1400 ∨ cp = 0x1806 ∨
  (0x2010 ≤ cp ∧ cp ≤ 0x30A0 ∧ (
    cp = 0x2010 ∨ (0x2012 ≤ cp ∧ cp ≤ 0x2015) ∨ cp = 0x2E17 ∨ cp = 0x2E1A ∨
    cp = 0x2E3A ∨ cp = 0x2E3B ∨ cp = 0x2E40 ∨ cp = 0x301C ∨ cp = 0x3030 ∨
    cp = 0x30A0)) ∨
  (0xFE31 ≤ cp ∧ cp ≤ 0xFF0D ∧ (
    cp = 0xFE31 ∨ cp = 0xFE32 ∨ cp = 0xFE58 ∨ cp = 0xFE63 ∨ cp = 0xFF0D)) ∨
  cp = 0x10EAD

/-- Word-break positions (`isWordBreaking`). -/
def isWordBreaking (cp : Nat) : Bool := isBreakingSpace cp || isBreakingDash cp

/-! ## The ANSI escape grammar

Modelled from the spec: the `regexes` module is not among the sources.
Per the spec the escape grammar is the CSI shape `ESC [ params letter`,
where the parameter bytes are digits and semicolons and the final byte
is in the CSI final-byte range. -/

/-- Whether a unit is a CSI parameter byte (digit or semicolon).
Modelled from the spec: part of the `regexes.ansi` grammar, whose
source file is missing. -/
def isCsiParam (u : Nat) : Bool := (0x30 ≤ u ∧ u ≤ 0x39) ∨ u = 0x3B

/-- Whether a unit is a CSI final byte.
Modelled from the spec: part of the `regexes.ansi` grammar, whose
source file is missing. -/
def isCsiFinal (u : Nat) : Bool := 0x40 ≤ u ∧ u ≤ 0x7E

/-- Modelled from the spec: recognize a single ANSI escape sequence
`ESC [ params letter` at the head of the list, returning the matched
units and the remainder (the single-sequence form of `regexes.ansi`). -/
def matchAnsiSeq : Str → Option (Str × Str)
  | 0x1B :: 0x5B :: rest =>
    match rest.dropWhile isCsiParam with
    | f :: r =>
      if isCsiFinal f then some (0x1B :: 0x5B :: (rest.takeWhile isCsiParam ++ [f]), r)
      else none
    | [] => none
  | _ => none

/-- Modelled from the spec: match a run of one or more consecutive
escape sequences (`regexes.ansi.consec`), greedily.  Structured with
explicit fuel; a sequence consumes at least one unit, so fuel equal to
the list length always suffices. -/
def matchAnsiRunAux : Nat → Str → Option (Str × Str)
  | 0, _ => none
  | fuel + 1, l =>
    match matchAnsiSeq l with
    | none => none
    | some (s, r) =>
      match matchAnsiRunAux fuel r with
      | some (s2, r2) => some (s ++ s2, r2)
      | none => some (s, r)

/-- Modelled from the spec: the next-run matcher applied at the head of
the remaining input. -/
def matchAnsiRun (l : Str) : Option (Str × Str) := matchAnsiRunAux l.length l

/-- The background reset sequence `ESC[49m` (`BG_CLOSE` in the source). -/
def BG_CLOSE : Str := [0x1B, 0x5B, 0x34, 0x39, 0x6D]

/-- Modelled from the spec: the background-color sequences recognized
by `regexes.ansi.bgGlobal` — `ESC [ 4 d m` with `d` a digit, scanned
left to right without overlap.  `ESC[49m` is the reset, `ESC[40m` to
`ESC[48m` set a background color. -/
def bgMatches : Str → List Str
  | 0x1B :: 0x5B :: 0x34 :: d :: 0x6D :: rest =>
    if 0x30 ≤ d ∧ d ≤ 0x39 then
      (0x1B :: 0x5B :: 0x34 :: d :: [0x6D]) :: bgMatches rest
    else bgMatches (0x5B :: 0x34 :: d :: 0x6D :: rest)
  | _ :: rest => bgMatches rest
  | [] => []

/-- JavaScript `Array.prototype.lastIndexOf` plus one: `0` when the
element does not occur, otherwise one past the last occurrence.  This is
exactly the `i` computed at the top of the background-tracking block of
`breakLine`. -/
def lastIdxP1 (x : Str) (l : List Str) : Nat :=
  match l with
  | [] => 0
  | a :: r =>
    let i := lastIdxP1 x r
    if i = 0 then (if a = x then 1 else 0) else i + 1

/-- Background tracking of `breakLine` (source lines 86–99): if the last
background sequence of the run is the close sequence, all tracked opens
are dropped; otherwise the sequences after the last close are appended
to the tracked list. -/
def trackBg (bgUnclosed : List Str) (bgs : List Str) : List Str :=
  let i := lastIdxP1 BG_CLOSE bgs
  if i = bgs.length then [] else bgUnclosed ++ bgs.drop i

/-- Modelled from the spec: the `regexes.lineBreak` normalization pass —
CRLF and the single line terminators CR, NEL, LS, PS are rewritten to a
single LF. -/
def normalizeLB : Str → Str
  | 0x0D :: 0x0A :: rest => 0x0A :: normalizeLB rest
  | u :: rest =>
    (if u = 0x0D ∨ u = 0x85 ∨ u = 0x2028 ∨ u = 0x2029 then 0x0A else u) :: normalizeLB rest
  | [] => []

/-! ## The line breaker (`breakLine`) -/

/-- Wrap options `{tolerance, trimBreak}`. -/
structure WrapOpts where
  tolerance : Int
  trimBreak : Bool
deriving DecidableEq

/-- The `tolerance = 0, trimBreak = false` defaults. -/
def defaultOpts : WrapOpts := ⟨0, false⟩

/-- The resolved parameters of one `breakLine` call: the validated
`maxWidth` and the two options. -/
structure BreakParams where
  maxWidth : Nat
  tolerance : Int
  trimBreak : Bool

/-- The mutable state of the `breakLine` loop.  Completed lines carry
the accumulated `lineWidth` they were flushed with, so that the width
accounting of the algorithm is part of the result; `breakLine` itself
projects the line contents back out. -/
structure BreakState where
  lines : List (Str × Nat)
  line : Str
  lineWidth : Nat
  bgUnclosed : List Str

/-- The empty initial state. -/
def initState : BreakState := ⟨[], [], 0, []⟩

/-- The `push` routine of `breakLine` (source lines 63–68): close the
background style if needed, flush the line together with its
accumulated width, and seed the next buffer with the unclosed
background sequences. -/
def push (st : BreakState) : BreakState :=
  let line := st.line ++ (if st.bgUnclosed.isEmpty then [] else BG_CLOSE)
  { lines := st.lines ++ [(line, st.lineWidth)]
    line := st.bgUnclosed.flatten
    lineWidth := 0
    bgUnclosed := st.bgUnclosed }

/-- Segment classification (source lines 117–140): from the current
unit and the units after it, the segment, its width, and the remaining
units after the segment. -/
def classify (u : Nat) (rest : Str) : Str × Nat × Str :=
  let cp := codePointAt (u :: rest)
  if isSurrogate cp then (u :: rest.take 1, 2, rest.drop 1)
  else if isCombining cp || isControl cp then ([u], 0, rest)
  else if isFullwidth cp then ([u], 2, rest)
  else ([u], 1, rest)

/-- The break decision of `breakLine` (source lines 141–152): on
overflow, a breaking space is trimmed when `trimBreak` is set, and the
line is flushed when the character is a breaking space or the projected
width exceeds `maxWidth + tolerance`. -/
def breakCheck (p : BreakParams) (st : BreakState) (cp : Nat) (segment : Str)
    (segmentWidth : Nat) : BreakState × Str × Nat :=
  let thisWidth := st.lineWidth + segmentWidth
  if p.maxWidth < thisWidth then
    let isBS := isBreakingSpace cp
    let (segment, segmentWidth) :=
      if p.trimBreak && isBS then (([] : Str), 0) else (segment, segmentWidth)
    let st := if isBS || ((thisWidth : Int) > (p.maxWidth : Int) + p.tolerance)
      then push st else st
    (st, segment, segmentWidth)
  else (st, segment, segmentWidth)

/-- One non-ANSI iteration of the `breakLine` loop (source lines
108–161): newline flush, segment classification, break decision,
append, and the breaking-dash flush. -/
def charStep (p : BreakParams) (st : BreakState) (u : Nat) (rest : Str) :
    BreakState × Str :=
  let cp := codePointAt (u :: rest)
  if cp = 0x0A then (push st, rest)
  else
    let (segment, segmentWidth, rest') := classify u rest
    let (st, segment, segmentWidth) := breakCheck p st cp segment segmentWidth
    let st := { st with lineWidth := st.lineWidth + segmentWidth,
                        line := st.line ++ segment }
    let st := if p.maxWidth ≤ st.lineWidth ∧ rest' ≠ [] ∧ isBreakingDash cp
      then push st else st
    (st, rest')

/-- The ANSI branch of the `breakLine` loop body (source lines 78–99):
append the raw matched run to the line and track its background
sequences, when it has any. -/
def ansiStep (st : BreakState) (run : Str) : BreakState :=
  let st := { st with line := st.line ++ run }
  let bgs := bgMatches run
  if bgs.isEmpty then st else { st with bgUnclosed := trackBg st.bgUnclosed bgs }

/-- The scanning loop of `breakLine` (source lines 77–163), with
explicit fuel: every iteration consumes at least one unit, so fuel one
above the input length always suffices.  An ANSI run at the current
position is consumed, its background sequences tracked, and — unless
the run ends the input, in which case the tracked opens are dropped and
the loop stops — the same iteration then processes the following
character. -/
def loop (p : BreakParams) : Nat → BreakState → Str → List (Str × Nat)
  | 0, st, _ => (push st).lines
  | _ + 1, st, [] => (push st).lines
  | fuel + 1, st, u :: r =>
    match matchAnsiRun (u :: r) with
    | some (run, rest') =>
      let st := ansiStep st run
      match rest' with
      | [] => (push { st with bgUnclosed := [] }).lines
      | u' :: r' =>
        let (st, rest'') := charStep p st u' r'
        loop p fuel st rest''
    | none =>
      let (st, rest'') := charStep p st u r
      loop p fuel st rest''

/-- Whether a `maxWidth` argument passes the `breakLine` guard: an
integer of at least 2. -/
def validWidth : JSNum → Option Nat
  | .int n => if n < 2 then none else some n.toNat
  | _ => none

/-- The `breakLine` function (source lines 50–165): guard, line-break
normalization, then the scanning loop; the accumulated widths of the
instrumented loop are projected away. -/
def breakLine (str : Str) (maxWidth : JSNum) (opts : Option WrapOpts) : List Str :=
  match validWidth maxWidth with
  | none => [str]
  | some w =>
    if str = [] then [str]
    else
      let o := opts.getD defaultOpts
      let t := normalizeLB str
      (loop ⟨w, o.tolerance, o.trimBreak⟩ (t.length + 1) initState t).map Prod.fst

/-- The `breakLines` function (source lines 171–173): map `breakLine`
with default options over the lines and flatten. -/
def breakLines (lines : List Str) (width : JSNum) : List Str :=
  (lines.map (fun line => breakLine line width none)).flatten

/-! ## ANSI stripping and `stringWidth` -/

/-- Modelled from the spec: global removal of every ANSI escape
sequence (`stripAnsi`), scanning left to right without overlap, with
explicit fuel (each step consumes at least one unit). -/
def stripAnsiAux : Nat → Str → Str
  | 0, s => s
  | _ + 1, [] => []
  | fuel + 1, u :: r =>
    match matchAnsiSeq (u :: r) with
    | some (_, rest) => stripAnsiAux fuel rest
    | none => u :: stripAnsiAux fuel r

/-- Strip ANSI sequences from a string (`stripAnsi`). -/
def stripAnsi (s : Str) : Str := stripAnsiAux s.length s

/-- The accumulation loop of `stringWidth` (source lines 261–283):
control and combining code points are skipped, a surrogate pair
consumes the low surrogate and adds an extra 1, and every counted code
point adds 2 when fullwidth and 1 otherwise. -/
def widthAux : Str → Nat
  | [] => 0
  | [u] =>
    if isControl u then 0
    else if isCombining u then 0
    else (if isFullwidth u then 2 else 1)
  | u :: v :: rest =>
    let cp := codePointAt (u :: v :: rest)
    if isControl cp then widthAux (v :: rest)
    else if isCombining cp then widthAux (v :: rest)
    else if isSurrogate cp then
      (1 + (if isFullwidth cp then 2 else 1)) + widthAux rest
    else (if isFullwidth cp then 2 else 1) + widthAux (v :: rest)

/-- Get the visual width of a string (`stringWidth`, source lines
252–285): zero for the empty string, otherwise strip ANSI sequences
first and accumulate. -/
def stringWidth (s : Str) : Nat :=
  if s = [] then 0
  else
    let t := stripAnsi s
    if t = [] then 0 else widthAux t

/-- UTF-16 encoding of one scalar value: a single unit in the basic
multilingual plane, a surrogate pair above it. -/
def utf16Encode (cp : Nat) : Str :=
  if cp ≤ 0xFFFF then [cp]
  else [0xD800 + (cp - 0x10000) / 0x400, 0xDC00 + (cp - 0x10000) % 0x400]

/-! ## Chunk-level instrumentation of the line breaker

The loop only ever extends the line buffer by whole units of work: a
matched ANSI run, a classified segment, the emitted background close,
or the re-opened background sequences.  The chunk-level twin of the
loop records these units instead of concatenating them away, so that
the atomicity of escape sequences in the output can be stated; the
projection theorem ties it back to `breakLine`. -/

/-- One unit appended to a line buffer: plain text (a segment) or ANSI
escape material (a matched run, the background close, or a re-opened
background sequence). -/
inductive Chunk where
  | text (s : Str)
  | ansi (s : Str)
deriving DecidableEq

/-- The units of a chunk. -/
def renderChunk : Chunk → Str
  | .text s => s
  | .ansi s => s

/-- The units of a chunk-level line. -/
def renderLine (l : List Chunk) : Str := (l.map renderChunk).flatten

/-- The chunk-level loop state. -/
structure CBreakState where
  lines : List (List Chunk × Nat)
  line : List Chunk
  lineWidth : Nat
  bgUnclosed : List Str

/-- The empty chunk-level state. -/
def cInit : CBreakState := ⟨[], [], 0, []⟩

/-- Chunk-level `push`. -/
def cPush (st : CBreakState) : CBreakState :=
  let line := st.line ++ (if st.bgUnclosed.isEmpty then [] else [Chunk.ansi BG_CLOSE])
  { lines := st.lines ++ [(line, st.lineWidth)]
    line := st.bgUnclosed.map Chunk.ansi
    lineWidth := 0
    bgUnclosed := st.bgUnclosed }

/-- Chunk-level break decision. -/
def cBreakCheck (p : BreakParams) (st : CBreakState) (cp : Nat) (segment : Str)
    (segmentWidth : Nat) : CBreakState × Str × Nat :=
  let thisWidth := st.lineWidth + segmentWidth
  if p.maxWidth < thisWidth then
    let isBS := isBreakingSpace cp
    let (segment, segmentWidth) :=
      if p.trimBreak && isBS then (([] : Str), 0) else (segment, segmentWidth)
    let st := if isBS || ((thisWidth : Int) > (p.maxWidth : Int) + p.tolerance)
      then cPush st else st
    (st, segment, segmentWidth)
  else (st, segment, segmentWidth)

/-- Chunk-level character step. -/
def cCharStep (p : BreakParams) (st : CBreakState) (u : Nat) (rest : Str) :
    CBreakState × Str :=
  let cp := codePointAt (u :: rest)
  if cp = 0x0A then (cPush st, rest)
  else
    let (segment, segmentWidth, rest') := classify u rest
    let (st, segment, segmentWidth) := cBreakCheck p st cp segment segmentWidth
    let st := { st with lineWidth := st.lineWidth + segmentWidth,
                        line := st.line ++ [Chunk.text segment] }
    let st := if p.maxWidth ≤ st.lineWidth ∧ rest' ≠ [] ∧ isBreakingDash cp
      then cPush st else st
    (st, rest')

/-- Chunk-level ANSI branch. -/
def cAnsiStep (st : CBreakState) (run : Str) : CBreakState :=
  let st := { st with line := st.line ++ [Chunk.ansi run] }
  let bgs := bgMatches run
  if bgs.isEmpty then st else { st with bgUnclosed := trackBg st.bgUnclosed bgs }

/-- Chunk-level scanning loop. -/
def cLoop (p : BreakParams) : Nat → CBreakState → Str → List (List Chunk × Nat)
  | 0, st, _ => (cPush st).lines
  | _ + 1, st, [] => (cPush st).lines
  | fuel + 1, st, u :: r =>
    match matchAnsiRun (u :: r) with
    | some (run, rest') =>
      let st := cAnsiStep st run
      match rest' with
      | [] => (cPush { st with bgUnclosed := [] }).lines
      | u' :: r' =>
        let (st, rest'') := cCharStep p st u' r'
        cLoop p fuel st rest''
    | none =>
      let (st, rest'') := cCharStep p st u r
      cLoop p fuel st rest''

/-- The chunk decomposition of `breakLine`'s output lines. -/
def breakLineChunks (str : Str) (maxWidth : JSNum) (opts : Option WrapOpts) :
    List (List Chunk) :=
  match validWidth maxWidth with
  | none => [[Chunk.text str]]
  | some w =>
    if str = [] then [[Chunk.text str]]
    else
      let o := opts.getD defaultOpts
      let t := normalizeLB str
      (cLoop ⟨w, o.tolerance, o.trimBreak⟩ (t.length + 1) cInit t).map Prod.fst

/-- Whether a string parses, in its entirety, as a run of one or more
complete ANSI escape sequences. -/
def isWholeRun (s : Str) : Bool := matchAnsiRun s = some (s, [])

/-- The projection of a chunk-level state to the plain loop state. -/
def projState (st : CBreakState) : BreakState :=
  ⟨st.lines.map (fun q => (renderLine q.1, q.2)), renderLine st.line,
    st.lineWidth, st.bgUnclosed⟩

/-- The chunk-level well-formedness invariant: every ANSI chunk already
emitted, and every tracked background sequence, is a whole run of
complete escape sequences. -/
def StOk (st : CBreakState) : Prop :=
  (∀ lc ∈ st.lines, ∀ c ∈ lc.1, ∀ r, c = Chunk.ansi r → isWholeRun r = true) ∧
  (∀ c ∈ st.line, ∀ r, c = Chunk.ansi r → isWholeRun r = true) ∧
  (∀ s ∈ st.bgUnclosed, isWholeRun s = true)

/-! ## Proof-support predicates -/

/-- The width invariant of the `breakLine` loop: every flushed line was
flushed at an accumulated width within `maxWidth + tolerance`, and the
running width is within the same budget. -/
def Inv (w : Nat) (tol : Int) (st : BreakState) : Prop :=
  (∀ q ∈ st.lines, (q.2 : Int) ≤ (w : Int) + tol) ∧
  ((st.lineWidth : Int) ≤ (w : Int) + tol)

/-! ## Segment-level analysis for re-wrap stability

The per-character classification of the loop induces a deterministic
segmentation of any string; these definitions let the output lines of
one pass be characterized well enough to re-run the loop on them. -/

/-- The segmentation induced by the loop's classifier: each entry is
the segment's units, its width, and the scalar value it was classified
from.  Mirrors `classify` applied left to right. -/
def segs : Str → List (Str × Nat × Nat)
  | [] => []
  | [u] =>
    if isSurrogate u then [([u], 2, u)]
    else if isCombining u || isControl u then [([u], 0, u)]
    else if isFullwidth u then [([u], 2, u)]
    else [([u], 1, u)]
  | u :: v :: rest =>
    let cp := codePointAt (u :: v :: rest)
    if isSurrogate cp then ([u, v], 2, cp) :: segs rest
    else if isCombining cp || isControl cp then ([u], 0, cp) :: segs (v :: rest)
    else if isFullwidth cp then ([u], 2, cp) :: segs (v :: rest)
    else ([u], 1, cp) :: segs (v :: rest)

/-- Total width of a segment list. -/
def sumW (l : List (Str × Nat × Nat)) : Nat := (l.map (fun q => q.2.1)).sum

/-- No escape character and no line terminator other than LF among the
units (LF itself may occur inside a bogus surrogate segment and is
harmless there). -/
def NoET (L : Str) : Prop :=
  ∀ u ∈ L, u ≠ 0x1B ∧ u ≠ 0x0D ∧ u ≠ 0x85 ∧ u ≠ 0x2028 ∧ u ≠ 0x2029

/-- The segmentation of `A` is stable under appending `B`: when the
last segment of `A` is a lone unit that would consume or merge with a
following unit, `B` cannot supply one. -/
def SegBoundaryOk (A B : Str) : Prop :=
  ∀ pre sg a, segs A = pre ++ [sg] → sg.1 = [a] →
    (isSurrogate a = true → B = []) ∧
    (isHighUnit a = true → ∀ b, B.head? = some b → isLowUnit b = false)

/-- What one pass guarantees about each output line: clean units, no
newline classified at a segment start, every cumulative width within
the budget, and no breaking dash at or past the budget before the last
segment. -/
def GoodOut (w : Nat) (L : Str) : Prop :=
  NoET L ∧ (∀ sg ∈ segs L, sg.2.2 ≠ 0x0A) ∧
  ∀ pre sg suf, segs L = pre ++ sg :: suf →
    sumW pre + sg.2.1 ≤ w ∧
    (suf ≠ [] → w ≤ sumW pre + sg.2.1 → isBreakingDash sg.2.2 = false)

/-- The running invariant of the first pass relating the line buffer to
its own segmentation (default options, escape-free input). -/
def LineInv (w : Nat) (st : BreakState) (rest : Str) : Prop :=
  NoET st.line ∧ (∀ sg ∈ segs st.line, sg.2.2 ≠ 0x0A) ∧
  st.lineWidth = sumW (segs st.line) ∧
  (∀ pre sg suf, segs st.line = pre ++ sg :: suf →
    sumW pre + sg.2.1 ≤ w ∧
    (w ≤ sumW pre + sg.2.1 → isBreakingDash sg.2.2 = true → suf = [] ∧ rest = [])) ∧
  SegBoundaryOk st.line rest

/-! ## Concrete inputs used by the example-level properties -/

/-- The code units of the string "hello world". -/
def hwU : Str := [0x68, 0x65, 0x6C, 0x6C, 0x6F, 0x20, 0x77, 0x6F, 0x72, 0x6C, 0x64]

/-- The code units of the string "abcdef". -/
def abcdefU : Str := [0x61, 0x62, 0x63, 0x64, 0x65, 0x66]

/-- The background-open sequence `ESC[41m`. -/
def bgOpen41 : Str := [0x1B, 0x5B, 0x34, 0x31, 0x6D]

/-- The background-open sequence `ESC[42m`. -/
def bgOpen42 : Str := [0x1B, 0x5B, 0x34, 0x32, 0x6D]

/-- The background-open sequence `ESC[43m`. -/
def bgOpen43 : Str := [0x1B, 0x5B, 0x34, 0x33, 0x6D]

/-- The code units of "ESC[41m" followed by "ab-cd": a breaking dash
reaching the width budget while a background color is open. -/
def dashBgU : Str := bgOpen41 ++ [0x61, 0x62, 0x2D, 0x63, 0x64]

/-- The code units of "ESC[", then "ESC[31m", then "m": stripping the
inner complete sequence glues the outer half and the trailing `m` into
a new complete sequence. -/
def trapU : Str := [0x1B, 0x5B] ++ [0x1B, 0x5B, 0x33, 0x31, 0x6D] ++ [0x6D]

/-! # Theorems -/

/-- Claim C1, counterexample: `breakLine "hello world" 5` with default
options does not return `["hello", " world"]` — the retained breaking
space makes the second line six columns wide, which cannot stand at
width five with zero tolerance. -/
theorem c1_counterexample :
    breakLine hwU (.int 5) none ≠
      [[0x68, 0x65, 0x6C, 0x6C, 0x6F], [0x20, 0x77, 0x6F, 0x72, 0x6C, 0x64]] := by
  decide

/-- Claim C1, amended: `breakLine "hello world" 5` with default options
returns `["hello", " worl", "d"]`: the break is forced at the
overflowing breaking space and the space is retained at the start of
the second line (`trimBreak` defaults to false), but that second line
reaches the width budget at "worl" and a second break is forced before
the final "d". -/
theorem c1_amended :
    breakLine hwU (.int 5) none =
      [[0x68, 0x65, 0x6C, 0x6C, 0x6F], [0x20, 0x77, 0x6F, 0x72, 0x6C], [0x64]] := by
  decide

/-- Claim C7: `breakLine "hello world" 5 {trimBreak: true}` returns
exactly `["hello", "world"]` — the overflowing breaking space is
discarded rather than carried to the start of the second line. -/
theorem c7_trimBreak :
    breakLine hwU (.int 5) (some ⟨0, true⟩) =
      [[0x68, 0x65, 0x6C, 0x6C, 0x6F], [0x77, 0x6F, 0x72, 0x6C, 0x64]] := by
  decide

/-- Claim C2: the break decision of `breakLine`.  When the projected
width exceeds `maxWidth`, a breaking space always flushes the current
line — even within tolerance — while any other character flushes only
when the projected width exceeds `maxWidth + tolerance`; the flush
emits the buffer as it stood before the segment was appended.  In
particular `breakLine "abcdef" 3 {tolerance: 1}` yields lines of width
up to 4 before a forced break. -/
theorem c2_break_decision :
    (∀ (p : BreakParams) (st : BreakState) (cp : Nat) (seg : Str) (sw : Nat),
      p.maxWidth < st.lineWidth + sw →
        (((breakCheck p st cp seg sw).1.lines ≠ st.lines) ↔
          (isBreakingSpace cp = true ∨
            ((st.lineWidth + sw : Nat) : Int) > (p.maxWidth : Int) + p.tolerance))
        ∧ ((breakCheck p st cp seg sw).1.lines ≠ st.lines →
            (breakCheck p st cp seg sw).1.lines =
              st.lines ++
                [(st.line ++ (if st.bgUnclosed.isEmpty then [] else BG_CLOSE),
                  st.lineWidth)]))
    ∧ breakLine abcdefU (.int 3) (some ⟨1, false⟩) =
        [[0x61, 0x62, 0x63, 0x64], [0x65, 0x66]] := by
  constructor
  · intro p st cp seg sw h
    have key : (breakCheck p st cp seg sw).1 =
        (if (isBreakingSpace cp ||
            decide (((st.lineWidth + sw : Nat) : Int) > (p.maxWidth : Int) + p.tolerance)) = true
          then push st else st) := by
      simp only [breakCheck, if_pos h]
    have hne : ∀ x : Str × Nat, st.lines ++ [x] ≠ st.lines := by
      intro x hEq
      have hl := congrArg List.length hEq
      simp at hl
    rw [key]
    by_cases hb : (isBreakingSpace cp ||
        decide (((st.lineWidth + sw : Nat) : Int) > (p.maxWidth : Int) + p.tolerance)) = true
    · rw [if_pos hb]
      have hb' : isBreakingSpace cp = true ∨
          ((st.lineWidth + sw : Nat) : Int) > (p.maxWidth : Int) + p.tolerance := by
        simpa using hb
      exact ⟨⟨fun _ => hb', fun _ => hne _⟩, fun _ => rfl⟩
    · rw [if_neg hb]
      have hb' : ¬(isBreakingSpace cp = true ∨
          ((st.lineWidth + sw : Nat) : Int) > (p.maxWidth : Int) + p.tolerance) := by
        simpa using hb
      exact ⟨⟨fun hx => (hx rfl).elim, fun hr => (hb' hr).elim⟩, fun hx => (hx rfl).elim⟩
  · decide

/-- Claim C2, witness: the general break decision instantiated at a
breaking space overflowing a width-5 budget. -/
theorem c2_witness :
    (((breakCheck ⟨5, 0, false⟩ ⟨[], [], 5, []⟩ 0x20 [0x20] 1).1.lines ≠
        ([] : List (Str × Nat))) ↔
      (isBreakingSpace 0x20 = true ∨ ((5 + 1 : Nat) : Int) > ((5 : Nat) : Int) + 0))
    ∧ ((breakCheck ⟨5, 0, false⟩ ⟨[], [], 5, []⟩ 0x20 [0x20] 1).1.lines ≠
        ([] : List (Str × Nat)) →
      (breakCheck ⟨5, 0, false⟩ ⟨[], [], 5, []⟩ 0x20 [0x20] 1).1.lines =
        [] ++ [(([] : Str) ++ (if ([] : List Str).isEmpty then [] else BG_CLOSE), 5)]) :=
  c2_break_decision.1 ⟨5, 0, false⟩ ⟨[], [], 5, []⟩ 0x20 [0x20] 1 (by decide)

/-- Claim C8: when the input string is empty (the only falsy string) or
`maxWidth` is not an integer of at least 2 — which covers infinities,
`NaN`, finite non-integers, and the widths 0 and 1 — `breakLine`
returns the one-element list holding the unchanged input. -/
theorem c8_guard :
    ∀ (s : Str) (mw : JSNum) (opts : Option WrapOpts),
      s = [] ∨ (∀ n : Int, mw = .int n → n < 2) →
      breakLine s mw opts = [s] := by
  intro s mw opts h
  cases mw with
  | int n =>
    rcases h with rfl | h
    · simp only [breakLine, validWidth]
      split
      · rfl
      · simp
    · have hn : n < 2 := h n rfl
      simp only [breakLine, validWidth, if_pos hn]
  | posInf => rfl
  | negInf => rfl
  | nan => rfl
  | frac q => rfl

/-- Claim C8, witness: `breakLine` at `NaN` width returns the input. -/
theorem c8_witness : breakLine [0x61] JSNum.nan none = [[0x61]] :=
  c8_guard [0x61] JSNum.nan none (Or.inr (fun _ h => nomatch h))

/-- Claim C3, counterexample: a run containing `ESC[42m ESC[49m ESC[43m`
scanned while `ESC[41m` is already tracked leaves the previously
tracked open in place — the unclosed-background list becomes
`[ESC[41m, ESC[43m]`, not `[ESC[43m]` as the claim requires. -/
theorem c3_counterexample :
    trackBg [bgOpen41] (bgMatches (bgOpen42 ++ BG_CLOSE ++ bgOpen43)) ≠ [bgOpen43] := by
  decide

/-- Unfolding lemma for the last-index computation. -/
theorem lastIdxP1_cons (x a : Str) (l : List Str) :
    lastIdxP1 x (a :: l) =
      if lastIdxP1 x l = 0 then (if a = x then 1 else 0) else lastIdxP1 x l + 1 := rfl

/-- The last-index computation yields zero exactly when the element is
absent. -/
theorem lastIdxP1_eq_zero (x : Str) (l : List Str) : lastIdxP1 x l = 0 ↔ x ∉ l := by
  induction l with
  | nil => simp [lastIdxP1]
  | cons a r ih =>
    rw [lastIdxP1_cons]
    by_cases h0 : lastIdxP1 x r = 0
    · rw [if_pos h0]
      by_cases hax : a = x
      · simp [hax]
      · simp [hax, Ne.symm hax, ih.mp h0]
    · rw [if_neg h0]
      simp only [List.mem_cons]
      constructor
      · intro hc
        exact absurd hc (by omega)
      · intro hc
        exact absurd (ih.mpr fun hm => hc (Or.inr hm)) h0

/-- The last-index computation after the last occurrence. -/
theorem lastIdxP1_append (pre opens : List Str) (hno : BG_CLOSE ∉ opens) :
    lastIdxP1 BG_CLOSE (pre ++ BG_CLOSE :: opens) = pre.length + 1 := by
  induction pre with
  | nil =>
    rw [List.nil_append, lastIdxP1_cons,
      if_pos ((lastIdxP1_eq_zero BG_CLOSE opens).mpr hno), if_pos rfl]
    simp
  | cons a r ih =>
    rw [List.cons_append, lastIdxP1_cons, ih]
    simp

/-- Claim C3, amended: splitting the run's background sequences at the
last reset, the tracked list is cleared when nothing follows the last
reset, and otherwise the opens after the last reset are appended to the
previously tracked opens — which are retained, not removed. -/
theorem c3_amended :
    ∀ (prior pre opens : List Str), BG_CLOSE ∉ opens →
      trackBg prior (pre ++ BG_CLOSE :: opens) =
        if opens = [] then [] else prior ++ opens := by
  intro prior pre opens hno
  simp only [trackBg, lastIdxP1_append pre opens hno]
  have hdrop : (pre ++ BG_CLOSE :: opens).drop (pre.length + 1) = opens := by
    have hsplit : pre ++ BG_CLOSE :: opens = (pre ++ [BG_CLOSE]) ++ opens := by simp
    rw [hsplit]
    have hl : (pre ++ [BG_CLOSE]).length = pre.length + 1 := by simp
    rw [← hl, List.drop_left]
  rw [hdrop]
  by_cases ho : opens = []
  · subst ho
    rw [if_pos (by simp), if_pos rfl]
  · have hop : 0 < opens.length := List.length_pos.mpr ho
    have hne2 : pre.length + 1 ≠ (pre ++ BG_CLOSE :: opens).length := by
      simp only [List.length_append, List.length_cons]
      omega
    rw [if_neg hne2, if_neg ho]

/-- Claim C3, witness: the amended tracking rule at a concrete run with
one open after the reset. -/
theorem c3_witness :
    trackBg [bgOpen41] ([bgOpen42] ++ BG_CLOSE :: [bgOpen43]) =
      if ([bgOpen43] : List Str) = [] then [] else [bgOpen41] ++ [bgOpen43] :=
  c3_amended [bgOpen41] [bgOpen42] [bgOpen43] (by decide)

/-- Unfolding lemma for `codePointAt` on at least two units. -/
theorem codePointAt_cons_cons (u v : Nat) (rest : Str) :
    codePointAt (u :: v :: rest) =
      if isHighUnit u ∧ isLowUnit v then 0x10000 + (u - 0xD800) * 0x400 + (v - 0xDC00)
      else u := rfl

/-- Claim C6: in the `stringWidth` accumulation, a scalar value above
0xFFFF contributes the surrogate increment 1 plus the fallthrough 2 (if
fullwidth) or 1 — so a non-fullwidth astral code point contributes
exactly 2 and a fullwidth astral code point (the 0x20000–0x3FFFD block
among them) contributes exactly 3 — and the low surrogate unit is
consumed without contributing. -/
theorem c6_surrogate_width :
    ∀ (cp : Nat) (rest : Str), 0xFFFF < cp → cp ≤ 0x10FFFF →
      widthAux (utf16Encode cp ++ rest) =
        (1 + (if isFullwidth cp then 2 else 1)) + widthAux rest
      ∧ (isFullwidth cp = false → widthAux (utf16Encode cp ++ rest) = 2 + widthAux rest)
      ∧ (isFullwidth cp = true → widthAux (utf16Encode cp ++ rest) = 3 + widthAux rest)
      ∧ isFullwidth 0x20000 = true ∧ isFullwidth 0x3FFFD = true := by
  intro cp rest h1 h2
  have hform : utf16Encode cp ++ rest =
      (0xD800 + (cp - 0x10000) / 0x400) :: (0xDC00 + (cp - 0x10000) % 0x400) :: rest := by
    simp only [utf16Encode, if_neg (by omega : ¬ cp ≤ 0xFFFF)]
    rfl
  have hdec : codePointAt
      ((0xD800 + (cp - 0x10000) / 0x400) :: (0xDC00 + (cp - 0x10000) % 0x400) :: rest) = cp := by
    rw [codePointAt_cons_cons, if_pos]
    · omega
    · constructor
      · simp only [isHighUnit, decide_eq_true_eq]
        omega
      · simp only [isLowUnit, decide_eq_true_eq]
        omega
  have hcon : isControl cp = false := by
    simp only [isControl, decide_eq_false_iff_not]
    omega
  have hcomb : isCombining cp = false := by
    simp only [isCombining, decide_eq_false_iff_not]
    omega
  have hsur : isSurrogate cp = true := by
    simp only [isSurrogate, decide_eq_true_eq]
    omega
  have hmain : widthAux (utf16Encode cp ++ rest) =
      (1 + (if isFullwidth cp then 2 else 1)) + widthAux rest := by
    rw [hform]
    simp only [widthAux, hdec, hcon, hcomb, hsur]
    simp
  refine ⟨hmain, fun hf => ?_, fun hf => ?_, by decide, by decide⟩
  · rw [hmain]
    simp [hf]
  · rw [hmain]
    simp [hf]

/-- Claim C6, witness: the fullwidth astral code point 0x20000
contributes 3. -/
theorem c6_witness :
    widthAux (utf16Encode 0x20000 ++ []) =
      (1 + (if isFullwidth 0x20000 then 2 else 1)) + widthAux [] :=
  (c6_surrogate_width 0x20000 [] (by decide) (by decide)).1

/-- Claim C9, counterexample: stripping is not transparent to
`stringWidth` — removing the complete inner sequence of
`"ESC[" ++ "ESC[31m" ++ "m"` glues the remaining units into `"ESC[m"`,
which a second strip would remove, so the measured widths differ (2
against 0). -/
theorem c9_counterexample : stringWidth trapU ≠ stringWidth (stripAnsi trapU) := by
  decide

/-- Claim C9, amended: `stringWidth` of the empty string is 0, and
`stringWidth (stripAnsi s) = stringWidth s` for every `s` on which
`stripAnsi` is idempotent (in particular whenever stripping exposes no
new escape sequence); full invariance fails because one removal pass
can create a fresh sequence out of the surrounding units. -/
theorem c9_amended :
    stringWidth ([] : Str) = 0 ∧
    ∀ s : Str, stripAnsi (stripAnsi s) = stripAnsi s →
      stringWidth (stripAnsi s) = stringWidth s := by
  constructor
  · rfl
  · intro s h
    by_cases hs : s = []
    · subst hs
      rfl
    · by_cases h1 : stripAnsi s = []
      · rw [h1]
        simp [stringWidth, hs, h1]
      · simp only [stringWidth, h]
        rw [if_neg h1, if_neg hs]

/-- Claim C9, witness: the amended invariance at a plain one-character
string. -/
theorem c9_witness : stringWidth (stripAnsi [0x61]) = stringWidth [0x61] :=
  c9_amended.2 [0x61] (by decide)

/-- Segment widths assigned by the classifier are at most 2. -/
theorem classify_width_le (u : Nat) (rest : Str) : (classify u rest).2.1 ≤ 2 := by
  simp only [classify]
  split_ifs <;> simp

/-- Case analysis for the break decision: either no overflow (state and
width unchanged), a tolerated overflow (state and width unchanged, and
the projected width is within `maxWidth + tolerance`), or a flush (the
state is pushed and the segment width is unchanged or zeroed). -/
theorem breakCheck_cases (p : BreakParams) (st : BreakState) (cp : Nat) (seg : Str)
    (sw : Nat) :
    ((breakCheck p st cp seg sw).1 = st ∧ (breakCheck p st cp seg sw).2.2 = sw ∧
      st.lineWidth + sw ≤ p.maxWidth) ∨
    ((breakCheck p st cp seg sw).1 = st ∧ (breakCheck p st cp seg sw).2.2 = sw ∧
      ((st.lineWidth + sw : Nat) : Int) ≤ (p.maxWidth : Int) + p.tolerance) ∨
    ((breakCheck p st cp seg sw).1 = push st ∧
      ((breakCheck p st cp seg sw).2.2 = sw ∨ (breakCheck p st cp seg sw).2.2 = 0)) := by
  by_cases hov : p.maxWidth < st.lineWidth + sw
  · by_cases htr : (p.trimBreak && isBreakingSpace cp) = true
    · by_cases hp : (isBreakingSpace cp ||
          decide (((st.lineWidth + sw : Nat) : Int) > (p.maxWidth : Int) + p.tolerance)) = true
      · have hval : breakCheck p st cp seg sw = (push st, [], 0) := by
          simp [breakCheck, if_pos hov, htr, hp]
          intro hbs
          exact absurd htr (by simp [hbs])
        right; right
        rw [hval]
        exact ⟨rfl, Or.inr rfl⟩
      · exfalso
        rw [Bool.and_eq_true] at htr
        simp [htr.2] at hp
    · by_cases hp : (isBreakingSpace cp ||
          decide (((st.lineWidth + sw : Nat) : Int) > (p.maxWidth : Int) + p.tolerance)) = true
      · have hval : breakCheck p st cp seg sw = (push st, seg, sw) := by
          simp [breakCheck, if_pos hov, htr, hp]
          intro hbs hle
          rw [hbs] at hp
          simp only [Bool.false_or, decide_eq_true_eq] at hp
          exact absurd hp (by omega)
        right; right
        rw [hval]
        exact ⟨rfl, Or.inl rfl⟩
      · have hval : breakCheck p st cp seg sw = (st, seg, sw) := by
          simp [breakCheck, if_pos hov, htr, hp]
          intro hd
          simp only [Bool.or_eq_true, decide_eq_true_eq, not_or] at hp
          rcases hd with hd | hd
          · exact absurd hd hp.1
          · exact absurd hd (by omega)
        right; left
        have hb : ((st.lineWidth + sw : Nat) : Int) ≤ (p.maxWidth : Int) + p.tolerance := by
          simp only [Bool.or_eq_true, decide_eq_true_eq, not_or] at hp
          omega
        rw [hval]
        exact ⟨rfl, rfl, hb⟩
  · have hval : breakCheck p st cp seg sw = (st, seg, sw) := by
      simp [breakCheck, if_neg hov]
    left
    rw [hval]
    exact ⟨rfl, rfl, by omega⟩

/-- The flush preserves the width invariant. -/
theorem push_inv (w : Nat) (tol : Int) (st : BreakState) (ht : 0 ≤ tol)
    (hI : Inv w tol st) : Inv w tol (push st) := by
  obtain ⟨hl, hw⟩ := hI
  constructor
  · intro q hq
    simp only [push, List.mem_append, List.mem_singleton] at hq
    rcases hq with hq | rfl
    · exact hl q hq
    · exact hw
  · show ((0 : Nat) : Int) ≤ (w : Int) + tol
    omega

/-- One character step preserves the width invariant. -/
theorem charStep_inv (p : BreakParams) (st : BreakState) (u : Nat) (rest : Str)
    (h2 : 2 ≤ p.maxWidth) (ht : 0 ≤ p.tolerance)
    (hI : Inv p.maxWidth p.tolerance st) :
    Inv p.maxWidth p.tolerance (charStep p st u rest).1 := by
  simp only [charStep]
  by_cases hnl : codePointAt (u :: rest) = 0x0A
  · simp only [hnl, if_pos rfl]
    exact push_inv _ _ _ ht hI
  · rw [if_neg hnl]
    rcases hcl : classify u rest with ⟨seg, swr⟩
    rcases swr with ⟨sw, rest'⟩
    have hsw : sw ≤ 2 := by
      have h := classify_width_le u rest
      rw [hcl] at h
      exact h
    rcases hbc : breakCheck p st (codePointAt (u :: rest)) seg sw with ⟨st1, sr⟩
    rcases sr with ⟨seg1, sw1⟩
    have hcases := breakCheck_cases p st (codePointAt (u :: rest)) seg sw
    rw [hbc] at hcases
    dsimp only at hcases
    have hlw : ((st1.lineWidth + sw1 : Nat) : Int) ≤ (p.maxWidth : Int) + p.tolerance := by
      rcases hcases with ⟨he, hs, hb⟩ | ⟨he, hs, hb⟩ | ⟨he, hs⟩
      · rw [he, hs]
        omega
      · rw [he, hs]
        omega
      · rw [he]
        have hz : (push st).lineWidth = 0 := rfl
        rw [hz]
        rcases hs with rfl | rfl
        · omega
        · omega
    have hlines : ∀ q ∈ st1.lines, (q.2 : Int) ≤ (p.maxWidth : Int) + p.tolerance := by
      rcases hcases with ⟨he, _, _⟩ | ⟨he, _, _⟩ | ⟨he, _⟩
      · rw [he]
        exact hI.1
      · rw [he]
        exact hI.1
      · rw [he]
        exact (push_inv p.maxWidth p.tolerance st ht hI).1
    have hmid : Inv p.maxWidth p.tolerance
        { st1 with lineWidth := st1.lineWidth + sw1, line := st1.line ++ seg1 } :=
      ⟨hlines, hlw⟩
    simp only [hcl, hbc]
    split
    · exact push_inv _ _ _ ht hmid
    · exact hmid

/-- The ANSI branch preserves the width invariant: it changes neither
the flushed lines nor the running width. -/
theorem ansiStep_inv (w : Nat) (tol : Int) (st : BreakState) (run : Str)
    (hI : Inv w tol st) : Inv w tol (ansiStep st run) := by
  simp only [ansiStep]
  split
  · exact ⟨hI.1, hI.2⟩
  · exact ⟨hI.1, hI.2⟩

/-- Every line flushed by the loop carries a width within
`maxWidth + tolerance`, provided the incoming state does. -/
theorem loop_inv (p : BreakParams) (h2 : 2 ≤ p.maxWidth) (ht : 0 ≤ p.tolerance) :
    ∀ (fuel : Nat) (st : BreakState) (rest : Str), Inv p.maxWidth p.tolerance st →
      ∀ q ∈ loop p fuel st rest, (q.2 : Int) ≤ (p.maxWidth : Int) + p.tolerance := by
  intro fuel
  induction fuel with
  | zero =>
    intro st rest hI q hq
    exact (push_inv _ _ _ ht hI).1 q hq
  | succ fuel ih =>
    intro st rest hI q hq
    cases rest with
    | nil => exact (push_inv _ _ _ ht hI).1 q hq
    | cons u r =>
      rw [loop] at hq
      rcases hrun : matchAnsiRun (u :: r) with _ | ⟨run, rest'⟩
      · rw [hrun] at hq
        dsimp only at hq
        rcases hcs : charStep p st u r with ⟨stN, restN⟩
        rw [hcs] at hq
        dsimp only at hq
        have hNI : Inv p.maxWidth p.tolerance stN := by
          have h := charStep_inv p st u r h2 ht hI
          rw [hcs] at h
          exact h
        exact ih stN restN hNI q hq
      · rw [hrun] at hq
        have hIa : Inv p.maxWidth p.tolerance (ansiStep st run) := ansiStep_inv _ _ _ _ hI
        cases rest' with
        | nil =>
          dsimp only at hq
          exact (push_inv p.maxWidth p.tolerance
            { ansiStep st run with bgUnclosed := [] } ht ⟨hIa.1, hIa.2⟩).1 q hq
        | cons u' r' =>
          dsimp only at hq
          rcases hcs : charStep p (ansiStep st run) u' r' with ⟨stN, restN⟩
          rw [hcs] at hq
          dsimp only at hq
          have hNI : Inv p.maxWidth p.tolerance stN := by
            have h := charStep_inv p (ansiStep st run) u' r' h2 ht hIa
            rw [hcs] at h
            exact h
          exact ih stN restN hNI q hq

/-- Claim C10: for every input, integer `maxWidth` of at least 2 and
tolerance at least 0, every line flushed by the `breakLine` loop has
accumulated width — as measured by the loop's own segment-width
assignment — at most `maxWidth + tolerance`; and `breakLine` is the
first projection of that instrumented loop. -/
theorem c10_width_bound :
    ∀ (s : Str) (n tol : Int) (tb : Bool), 2 ≤ n → 0 ≤ tol →
      (∀ q ∈ loop ⟨n.toNat, tol, tb⟩ ((normalizeLB s).length + 1) initState (normalizeLB s),
        (q.2 : Int) ≤ n + tol)
      ∧ (s ≠ [] → breakLine s (.int n) (some ⟨tol, tb⟩) =
          (loop ⟨n.toNat, tol, tb⟩ ((normalizeLB s).length + 1) initState
            (normalizeLB s)).map Prod.fst) := by
  intro s n tol tb h2 ht
  constructor
  · intro q hq
    have h2' : 2 ≤ (⟨n.toNat, tol, tb⟩ : BreakParams).maxWidth := by
      show 2 ≤ n.toNat
      omega
    have hI : Inv (⟨n.toNat, tol, tb⟩ : BreakParams).maxWidth tol initState := by
      constructor
      · intro q hq
        simp [initState] at hq
      · show ((0 : Nat) : Int) ≤ _
        omega
    have h := loop_inv ⟨n.toNat, tol, tb⟩ h2' ht ((normalizeLB s).length + 1) initState
      (normalizeLB s) hI q hq
    have hcast : ((n.toNat : Nat) : Int) = n := by omega
    rw [hcast] at h
    exact h
  · intro hs
    simp only [breakLine, validWidth, if_neg (by omega : ¬ n < 2), if_neg hs]
    rfl

/-- Claim C10, witness: the bound instantiated at the one-character
input "a" with width 2 and tolerance 0. -/
theorem c10_witness : ((1 : Nat) : Int) ≤ 2 + 0 :=
  (c10_width_bound [0x61] 2 0 false (by decide) (by decide)).1 ([0x61], 1) (by decide)

theorem dropWhile_append_ne_nil (p : Nat → Bool) (l1 l2 : Str) (h : l1.dropWhile p ≠ []) :
    (l1 ++ l2).dropWhile p = l1.dropWhile p ++ l2 := by
  induction l1 with
  | nil => simp at h
  | cons a r ih =>
    by_cases hp : p a
    · simp only [List.cons_append, List.dropWhile_cons, hp, if_true] at h ⊢
      exact ih h
    · simp [List.dropWhile_cons, hp]

theorem param_split (ps : Str) (f : Nat) (tail : Str)
    (hps : ∀ x ∈ ps, isCsiParam x = true) (hf : isCsiParam f = false) :
    (ps ++ f :: tail).dropWhile isCsiParam = f :: tail ∧
    (ps ++ f :: tail).takeWhile isCsiParam = ps := by
  induction ps with
  | nil => simp [List.dropWhile_cons, List.takeWhile_cons, hf]
  | cons a r ih =>
    have ha : isCsiParam a = true := hps a (by simp)
    have ih' := ih (fun x hx => hps x (by simp [hx]))
    constructor
    · rw [List.cons_append, List.dropWhile_cons, if_pos ha]
      exact ih'.1
    · rw [List.cons_append, List.takeWhile_cons, if_pos ha, ih'.2]

theorem csiFinal_not_param (f : Nat) (hf : isCsiFinal f = true) : isCsiParam f = false := by
  simp only [isCsiFinal, decide_eq_true_eq] at hf
  simp only [isCsiParam, decide_eq_false_iff_not]
  omega

theorem matchAnsiSeq_some (l s r : Str) (h : matchAnsiSeq l = some (s, r)) :
    l = s ++ r ∧ s ≠ [] ∧ (∀ ext, matchAnsiSeq (s ++ ext) = some (s, ext)) := by
  rw [matchAnsiSeq.eq_def] at h
  split at h
  case h_2 => exact absurd h (by simp)
  case h_1 rest =>
    revert h
    split
    case h_2 hdw => intro h; exact absurd h (by simp)
    case h_1 f r' hdw =>
      intro h
      by_cases hfin : isCsiFinal f = true
      · rw [if_pos hfin] at h
        simp only [Option.some.injEq, Prod.mk.injEq] at h
        obtain ⟨hs, hr⟩ := h
        subst hs
        rw [hr] at hdw
        have hps : ∀ x ∈ rest.takeWhile isCsiParam, isCsiParam x = true :=
          fun x hx => List.mem_takeWhile_imp hx
        have hrest : rest = rest.takeWhile isCsiParam ++ f :: r := by
          conv_lhs => rw [← List.takeWhile_append_dropWhile isCsiParam rest]
          rw [hdw]
        refine ⟨?_, by simp, ?_⟩
        · rw [List.cons_append, List.cons_append, List.append_assoc]
          simp only [List.cons_append, List.nil_append]
          rw [← hrest]
        · intro ext
          have hsplit := param_split (rest.takeWhile isCsiParam) f ext hps
            (csiFinal_not_param f hfin)
          rw [List.cons_append, List.cons_append, List.append_assoc]
          simp only [List.cons_append, List.nil_append]
          simp only [matchAnsiSeq]
          rw [hsplit.1]
          simp only [hsplit.2, hfin, if_true]
      · rw [if_neg hfin] at h
        exact absurd h (by simp)

theorem matchAnsiRunAux_nil (fuel : Nat) : matchAnsiRunAux fuel [] = none := by
  cases fuel <;> simp [matchAnsiRunAux, matchAnsiSeq]

theorem matchAnsiRunAux_some :
    ∀ (fuel : Nat) (l run rest : Str), matchAnsiRunAux fuel l = some (run, rest) →
      l = run ++ rest ∧ run ≠ [] ∧
      (∀ g, run.length ≤ g → matchAnsiRunAux g run = some (run, [])) := by
  intro fuel
  induction fuel with
  | zero => intro l run rest h; simp [matchAnsiRunAux] at h
  | succ fuel ih =>
    intro l run rest h
    rw [matchAnsiRunAux] at h
    rcases hseq : matchAnsiSeq l with _ | ⟨s1, r1⟩
    · rw [hseq] at h; exact absurd h (by simp)
    · rw [hseq] at h
      dsimp only at h
      obtain ⟨hl1, hs1ne, hext⟩ := matchAnsiSeq_some l s1 r1 hseq
      rcases haux : matchAnsiRunAux fuel r1 with _ | ⟨s2, r2⟩
      · rw [haux] at h
        simp only [Option.some.injEq, Prod.mk.injEq] at h
        obtain ⟨hrun, hrest⟩ := h
        subst hrun
        subst hrest
        refine ⟨hl1, hs1ne, ?_⟩
        intro g hg
        have hglen : 1 ≤ g := by
          have := List.length_pos.mpr hs1ne
          omega
        obtain ⟨g', rfl⟩ : ∃ g', g = g' + 1 := ⟨g - 1, by omega⟩
        rw [matchAnsiRunAux]
        have hself : matchAnsiSeq s1 = some (s1, []) := by
          have := hext []
          simpa using this
        rw [hself]
        dsimp only
        rw [matchAnsiRunAux_nil]
      · rw [haux] at h
        simp only [Option.some.injEq, Prod.mk.injEq] at h
        obtain ⟨hrun, hrest⟩ := h
        obtain ⟨hl2, hs2ne, hrun2⟩ := ih r1 s2 r2 haux
        subst hrun
        subst hrest
        constructor
        · rw [hl1, hl2, List.append_assoc]
        refine ⟨by simp [hs1ne], ?_⟩
        intro g hg
        have hs1len : 1 ≤ s1.length := by
          have := List.length_pos.mpr hs1ne
          omega
        have hs2len : 1 ≤ s2.length := by
          have := List.length_pos.mpr hs2ne
          omega
        rw [List.length_append] at hg
        obtain ⟨g', rfl⟩ : ∃ g', g = g' + 1 := ⟨g - 1, by omega⟩
        rw [matchAnsiRunAux, hext s2]
        dsimp only
        rw [hrun2 g' (by omega)]


theorem renderLine_append (a b : List Chunk) :
    renderLine (a ++ b) = renderLine a ++ renderLine b := by
  simp [renderLine]

theorem renderLine_map_ansi (l : List Str) : renderLine (l.map Chunk.ansi) = l.flatten := by
  simp only [renderLine, List.map_map]
  have h : renderChunk ∘ Chunk.ansi = fun s => s := rfl
  rw [h, List.map_id']

theorem renderChunk_ansi_comp : renderChunk ∘ Chunk.ansi = id := rfl

theorem proj_push (st : CBreakState) : push (projState st) = projState (cPush st) := by
  by_cases hbg : st.bgUnclosed.isEmpty
  · simp [push, cPush, projState, hbg, renderLine_append, renderLine, renderChunk,
      renderChunk_ansi_comp]
  · simp [push, cPush, projState, hbg, renderLine_append, renderLine, renderChunk,
      renderChunk_ansi_comp]

theorem proj_breakCheck (p : BreakParams) (st : CBreakState) (cp : Nat) (seg : Str)
    (sw : Nat) :
    breakCheck p (projState st) cp seg sw =
      (projState (cBreakCheck p st cp seg sw).1, (cBreakCheck p st cp seg sw).2) := by
  have hw : (projState st).lineWidth = st.lineWidth := rfl
  by_cases hov : p.maxWidth < st.lineWidth + sw
  · by_cases htr : (p.trimBreak && isBreakingSpace cp) = true
    · by_cases hp : (isBreakingSpace cp ||
          decide (((st.lineWidth + sw : Nat) : Int) > (p.maxWidth : Int) + p.tolerance)) = true
      · simp [breakCheck, cBreakCheck, hw, hov, htr, hp, proj_push, apply_ite]
      · simp [breakCheck, cBreakCheck, hw, hov, htr, hp, proj_push, apply_ite]
    · by_cases hp : (isBreakingSpace cp ||
          decide (((st.lineWidth + sw : Nat) : Int) > (p.maxWidth : Int) + p.tolerance)) = true
      · simp [breakCheck, cBreakCheck, hw, hov, htr, hp, proj_push, apply_ite]
      · simp [breakCheck, cBreakCheck, hw, hov, htr, hp, proj_push, apply_ite]
  · simp [breakCheck, cBreakCheck, hw, hov]

theorem proj_mid (st1 : CBreakState) (seg : Str) (sw1 : Nat) :
    ({ projState st1 with
        lineWidth := (projState st1).lineWidth + sw1
        line := (projState st1).line ++ seg } : BreakState) =
      projState { st1 with
        lineWidth := st1.lineWidth + sw1
        line := st1.line ++ [Chunk.text seg] } := by
  simp [projState, renderLine_append, renderLine, renderChunk]

theorem proj_charStep (p : BreakParams) (st : CBreakState) (u : Nat) (rest : Str) :
    charStep p (projState st) u rest =
      (projState (cCharStep p st u rest).1, (cCharStep p st u rest).2) := by
  simp only [charStep, cCharStep]
  by_cases hnl : codePointAt (u :: rest) = 0x0A
  · simp [hnl, proj_push]
  · simp only [hnl, if_neg, if_false]
    rcases hcl : classify u rest with ⟨seg, swr⟩
    rcases swr with ⟨sw, rest'⟩
    rcases hbc : cBreakCheck p st (codePointAt (u :: rest)) seg sw with ⟨st1, sr⟩
    rcases sr with ⟨seg1, sw1⟩
    have hpb := proj_breakCheck p st (codePointAt (u :: rest)) seg sw
    rw [hbc] at hpb
    dsimp only
    rw [hpb]
    dsimp only
    rw [proj_mid]
    have hw1 : (projState st1).lineWidth = st1.lineWidth := rfl
    rw [hw1, proj_push, apply_ite projState]

theorem proj_ansiStep (st : CBreakState) (run : Str) :
    ansiStep (projState st) run = projState (cAnsiStep st run) := by
  by_cases hbg : (bgMatches run).isEmpty
  · simp [ansiStep, cAnsiStep, projState, hbg, renderLine_append, renderLine, renderChunk]
  · simp [ansiStep, cAnsiStep, projState, hbg, renderLine_append, renderLine, renderChunk]

theorem proj_clear (st : CBreakState) :
    ({ projState st with bgUnclosed := [] } : BreakState) =
      projState { st with bgUnclosed := [] } := rfl

theorem proj_loop (p : BreakParams) :
    ∀ (fuel : Nat) (st : CBreakState) (rest : Str),
      loop p fuel (projState st) rest =
        (cLoop p fuel st rest).map (fun q => (renderLine q.1, q.2)) := by
  intro fuel
  induction fuel with
  | zero =>
    intro st rest
    rw [loop, cLoop, proj_push]
    rfl
  | succ fuel ih =>
    intro st rest
    cases rest with
    | nil =>
      rw [loop, cLoop, proj_push]
      rfl
    | cons u r =>
      rw [loop, cLoop]
      rcases hrun : matchAnsiRun (u :: r) with _ | ⟨run, rest'⟩
      · dsimp only
        rcases hcs : cCharStep p st u r with ⟨stN, restN⟩
        have hpc := proj_charStep p st u r
        rw [hcs] at hpc
        rw [hpc]
        dsimp only
        exact ih stN restN
      · dsimp only
        rw [proj_ansiStep]
        cases rest' with
        | nil =>
          rw [proj_clear, proj_push]
          rfl
        | cons u' r' =>
          dsimp only
          rcases hcs : cCharStep p (cAnsiStep st run) u' r' with ⟨stN, restN⟩
          have hpc := proj_charStep p (cAnsiStep st run) u' r'
          rw [hcs] at hpc
          rw [hpc]
          dsimp only
          exact ih stN restN



theorem bgMatches_shape : ∀ (run : Str), ∀ s ∈ bgMatches run,
    ∃ d, (0x30 ≤ d ∧ d ≤ 0x39) ∧ s = [0x1B, 0x5B, 0x34, d, 0x6D] := by
  intro run
  induction run using bgMatches.induct with
  | case1 d rest hd ih =>
    intro s hs
    rw [bgMatches, if_pos hd] at hs
    rcases List.mem_cons.mp hs with rfl | hs
    · exact ⟨d, hd, rfl⟩
    · exact ih s hs
  | case2 d rest hd ih =>
    intro s hs
    rw [bgMatches, if_neg hd] at hs
    exact ih s hs
  | case3 u rest h ih =>
    intro s hs
    rw [bgMatches] at hs
    case x_1 => exact h
    exact ih s hs
  | case4 => intro s hs; simp [bgMatches] at hs

theorem bgToken_whole (d : Nat) (h1 : 0x30 ≤ d) (h2 : d ≤ 0x39) :
    isWholeRun [0x1B, 0x5B, 0x34, d, 0x6D] = true := by
  interval_cases d <;> decide

theorem BG_CLOSE_whole : isWholeRun BG_CLOSE = true := by decide

theorem trackBg_mem (a b : List Str) : ∀ x ∈ trackBg a b, x ∈ a ∨ x ∈ b := by
  intro x hx
  simp only [trackBg] at hx
  split at hx
  · cases hx
  · rcases List.mem_append.mp hx with h | h
    · exact Or.inl h
    · exact Or.inr (List.drop_subset _ _ h)

theorem cPush_ok (st : CBreakState) (h : StOk st) : StOk (cPush st) := by
  obtain ⟨hlines, hline, hbg⟩ := h
  refine ⟨?_, ?_, hbg⟩
  · intro lc hlc c hc r hr
    simp only [cPush, List.mem_append, List.mem_singleton] at hlc
    rcases hlc with hlc | rfl
    · exact hlines lc hlc c hc r hr
    · simp only [List.mem_append] at hc
      rcases hc with hc | hc
      · exact hline c hc r hr
      · revert hc
        split
        · intro hc; cases hc
        · intro hc
          rcases List.mem_singleton.mp hc with rfl
          cases hr
          exact BG_CLOSE_whole
  · intro c hc r hr
    simp only [cPush] at hc
    rcases List.mem_map.mp hc with ⟨s, hs, rfl⟩
    cases hr
    exact hbg _ hs

theorem cBreakCheck_state (p : BreakParams) (st : CBreakState) (cp : Nat) (seg : Str)
    (sw : Nat) :
    (cBreakCheck p st cp seg sw).1 = st ∨ (cBreakCheck p st cp seg sw).1 = cPush st := by
  by_cases hov : p.maxWidth < st.lineWidth + sw
  · by_cases htr : (p.trimBreak && isBreakingSpace cp) = true
    · by_cases hp : (isBreakingSpace cp ||
          decide (((st.lineWidth + sw : Nat) : Int) > (p.maxWidth : Int) + p.tolerance)) = true
      · right
        simp [cBreakCheck, hov, htr, hp]
        intro hbs
        exact absurd htr (by simp [hbs])
      · exfalso
        rw [Bool.and_eq_true] at htr
        simp [htr.2] at hp
    · by_cases hp : (isBreakingSpace cp ||
          decide (((st.lineWidth + sw : Nat) : Int) > (p.maxWidth : Int) + p.tolerance)) = true
      · right
        simp [cBreakCheck, hov, htr, hp]
        intro hbs hle
        rw [hbs] at hp
        simp only [Bool.false_or, decide_eq_true_eq] at hp
        exact absurd hp (by omega)
      · left
        simp [cBreakCheck, hov, htr, hp]
        intro hd
        simp only [Bool.or_eq_true, decide_eq_true_eq, not_or] at hp
        rcases hd with hd | hd
        · exact absurd hd hp.1
        · exact absurd hd (by omega)
  · left; simp [cBreakCheck, hov]

theorem cCharStep_ok (p : BreakParams) (st : CBreakState) (u : Nat) (rest : Str)
    (h : StOk st) : StOk (cCharStep p st u rest).1 := by
  simp only [cCharStep]
  by_cases hnl : codePointAt (u :: rest) = 0x0A
  · simp only [hnl, if_pos rfl]
    exact cPush_ok st h
  · rw [if_neg hnl]
    rcases hcl : classify u rest with ⟨seg, swr⟩
    rcases swr with ⟨sw, rest'⟩
    rcases hbc : cBreakCheck p st (codePointAt (u :: rest)) seg sw with ⟨st1, sr⟩
    rcases sr with ⟨seg1, sw1⟩
    have hst1 : StOk st1 := by
      have hcs := cBreakCheck_state p st (codePointAt (u :: rest)) seg sw
      rw [hbc] at hcs
      dsimp only at hcs
      rcases hcs with rfl | rfl
      · exact h
      · exact cPush_ok st h
    have hmid : StOk { st1 with
        lineWidth := st1.lineWidth + sw1
        line := st1.line ++ [Chunk.text seg1] } := by
      obtain ⟨hlines, hline, hbg⟩ := hst1
      refine ⟨hlines, ?_, hbg⟩
      intro c hc r hr
      simp only [List.mem_append, List.mem_singleton] at hc
      rcases hc with hc | rfl
      · exact hline c hc r hr
      · cases hr
    dsimp only
    split
    · exact cPush_ok _ hmid
    · exact hmid

theorem cAnsiStep_ok (st : CBreakState) (run : Str) (h : StOk st)
    (hrun : isWholeRun run = true) : StOk (cAnsiStep st run) := by
  obtain ⟨hlines, hline, hbg⟩ := h
  have hline' : ∀ c ∈ st.line ++ [Chunk.ansi run], ∀ r, c = Chunk.ansi r →
      isWholeRun r = true := by
    intro c hc r hr
    simp only [List.mem_append, List.mem_singleton] at hc
    rcases hc with hc | rfl
    · exact hline c hc r hr
    · cases hr
      exact hrun
  simp only [cAnsiStep]
  split
  · exact ⟨hlines, hline', hbg⟩
  · refine ⟨hlines, hline', ?_⟩
    intro s hs
    rcases trackBg_mem st.bgUnclosed (bgMatches run) s hs with hmem | hmem
    · exact hbg s hmem
    · rcases bgMatches_shape run s hmem with ⟨d, ⟨hd1, hd2⟩, rfl⟩
      exact bgToken_whole d hd1 hd2

theorem matchAnsiRun_whole (l run rest : Str) (h : matchAnsiRun l = some (run, rest)) :
    isWholeRun run = true := by
  obtain ⟨_, _, hself⟩ := matchAnsiRunAux_some l.length l run rest h
  have := hself run.length (by omega)
  simp only [isWholeRun, matchAnsiRun, decide_eq_true_eq]
  exact this

theorem cLoop_ok (p : BreakParams) :
    ∀ (fuel : Nat) (st : CBreakState) (rest : Str), StOk st →
      ∀ lc ∈ cLoop p fuel st rest, ∀ c ∈ lc.1, ∀ r, c = Chunk.ansi r →
        isWholeRun r = true := by
  intro fuel
  induction fuel with
  | zero =>
    intro st rest h lc hlc
    exact (cPush_ok st h).1 lc hlc
  | succ fuel ih =>
    intro st rest h lc hlc
    cases rest with
    | nil => exact (cPush_ok st h).1 lc hlc
    | cons u r =>
      rw [cLoop] at hlc
      rcases hrun : matchAnsiRun (u :: r) with _ | ⟨run, rest'⟩
      · rw [hrun] at hlc
        dsimp only at hlc
        rcases hcs : cCharStep p st u r with ⟨stN, restN⟩
        rw [hcs] at hlc
        dsimp only at hlc
        have hN : StOk stN := by
          have hh := cCharStep_ok p st u r h
          rw [hcs] at hh
          exact hh
        exact ih stN restN hN lc hlc
      · rw [hrun] at hlc
        have hA : StOk (cAnsiStep st run) :=
          cAnsiStep_ok st run h (matchAnsiRun_whole _ _ _ hrun)
        cases rest' with
        | nil =>
          dsimp only at hlc
          have hA' : StOk { cAnsiStep st run with bgUnclosed := [] } := by
            refine ⟨hA.1, hA.2.1, ?_⟩
            intro s hs
            cases hs
          exact (cPush_ok _ hA').1 lc hlc
        | cons u' r' =>
          dsimp only at hlc
          rcases hcs : cCharStep p (cAnsiStep st run) u' r' with ⟨stN, restN⟩
          rw [hcs] at hlc
          dsimp only at hlc
          have hN : StOk stN := by
            have hh := cCharStep_ok p (cAnsiStep st run) u' r' hA
            rw [hcs] at hh
            exact hh
          exact ih stN restN hN lc hlc



theorem breakLine_eq_chunks (s : Str) (mw : JSNum) (opts : Option WrapOpts) :
    breakLine s mw opts = (breakLineChunks s mw opts).map renderLine := by
  unfold breakLine breakLineChunks
  cases hv : validWidth mw with
  | none => simp [renderLine, renderChunk]
  | some w =>
    by_cases hs : s = []
    · simp [hs, renderLine, renderChunk]
    · simp only [hs, if_neg, if_false]
      have hinit : initState = projState cInit := rfl
      rw [hinit, proj_loop]
      simp [List.map_map]

theorem cInit_ok : StOk cInit := by
  refine ⟨?_, ?_, ?_⟩
  · intro lc hlc
    simp [cInit] at hlc
  · intro c hc
    simp [cInit] at hc
  · intro s hs
    simp [cInit] at hs

/-- Claim C4: whenever a line is flushed while the unclosed-background
list is non-empty, the flushed line ends with the reset `ESC[49m` and
the next buffer starts with the tracked background opens re-emitted
verbatim in order; and every output line of `breakLine` is a
concatenation of whole chunks — plain segments and ANSI material — in
which every ANSI chunk is a complete run of escape sequences, so no
matched escape sequence is ever split across output lines. -/
theorem c4_atomicity :
    (∀ st : BreakState, st.bgUnclosed ≠ [] →
      (push st).lines = st.lines ++ [(st.line ++ BG_CLOSE, st.lineWidth)] ∧
      (push st).line = st.bgUnclosed.flatten)
    ∧ ∀ (s : Str) (mw : JSNum) (opts : Option WrapOpts),
        breakLine s mw opts = (breakLineChunks s mw opts).map renderLine
        ∧ ∀ lc ∈ breakLineChunks s mw opts, ∀ c ∈ lc, ∀ r, c = Chunk.ansi r →
            isWholeRun r = true := by
  constructor
  · intro st hbg
    have hne : st.bgUnclosed.isEmpty = false := by
      cases h : st.bgUnclosed.isEmpty
      · rfl
      · exact absurd (List.isEmpty_iff.mp h) hbg
    constructor
    · simp [push, hne]
    · rfl
  · intro s mw opts
    refine ⟨breakLine_eq_chunks s mw opts, ?_⟩
    unfold breakLineChunks
    cases hv : validWidth mw with
    | none =>
      dsimp only
      intro lc hlc c hc r hr
      rcases List.mem_singleton.mp hlc with rfl
      rcases List.mem_singleton.mp hc with rfl
      cases hr
    | some w =>
      dsimp only
      by_cases hs : s = []
      · rw [if_pos hs]
        intro lc hlc c hc r hr
        rcases List.mem_singleton.mp hlc with rfl
        rcases List.mem_singleton.mp hc with rfl
        cases hr
      · rw [if_neg hs]
        intro lc hlc c hc r hr
        rcases List.mem_map.mp hlc with ⟨q, hq, rfl⟩
        exact cLoop_ok _ _ cInit _ cInit_ok q hq c hc r hr

/-- Claim C4, witness: the flush behavior at a concrete mid-color
state. -/
theorem c4_witness :
    (push ⟨[], [0x61], 1, [bgOpen41]⟩).lines = [] ++ [([0x61] ++ BG_CLOSE, 1)] ∧
    (push ⟨[], [0x61], 1, [bgOpen41]⟩).line = [bgOpen41].flatten :=
  c4_atomicity.1 ⟨[], [0x61], 1, [bgOpen41]⟩ (by decide)



theorem segs_cons (u : Nat) (rest : Str) :
    segs (u :: rest) =
      ((classify u rest).1, (classify u rest).2.1, codePointAt (u :: rest)) ::
        segs (classify u rest).2.2 := by
  cases rest with
  | nil =>
    simp only [segs, classify, codePointAt]
    split_ifs <;> rfl
  | cons v r =>
    simp only [segs, classify]
    split_ifs <;> rfl

theorem classify_decomp (u : Nat) (rest : Str) :
    (classify u rest).1 ++ (classify u rest).2.2 = u :: rest := by
  simp only [classify]
  split_ifs <;> cases rest <;> simp

theorem classify_single_cp (u : Nat) (rest : Str)
    (h : ¬ isSurrogate (codePointAt (u :: rest)) = true) : codePointAt (u :: rest) = u := by
  cases rest with
  | nil => rfl
  | cons v r =>
    rw [codePointAt_cons_cons] at h ⊢
    split_ifs with hc
    · exfalso
      rw [if_pos hc] at h
      simp only [isSurrogate, decide_eq_true_eq] at h
      omega
    · rfl

theorem classify_units (u : Nat) (rest : Str) :
    segs (classify u rest).1 =
      [((classify u rest).1, (classify u rest).2.1, codePointAt (u :: rest))] := by
  by_cases hsur : isSurrogate (codePointAt (u :: rest)) = true
  · cases rest with
    | nil =>
      have hval : classify u [] = ([u], 2, ([] : Str)) := by
        simp [classify, hsur]
      rw [hval]
      have hsur2 : isSurrogate u = true := hsur
      simp only [segs, hsur2, if_true]
      rfl
    | cons v r =>
      have hval : classify u (v :: r) = ([u, v], 2, r) := by
        simp [classify, hsur]
      rw [hval]
      have hcp : codePointAt [u, v] = codePointAt (u :: v :: r) := rfl
      simp only [segs, hcp, hsur, if_true]
  · have hcp := classify_single_cp u rest hsur
    have hsu : ¬ isSurrogate u = true := by
      rw [← hcp]
      exact hsur
    simp only [classify, hcp]
    rw [if_neg hsu]
    split_ifs <;> simp [segs, hcp, hsu, *]

theorem segs_nil_iff (X : Str) : segs X = [] ↔ X = [] := by
  cases X with
  | nil => simp [segs]
  | cons u rest =>
    rw [segs_cons]
    simp

theorem sumW_append (a b : List (Str × Nat × Nat)) : sumW (a ++ b) = sumW a + sumW b := by
  simp [sumW]

theorem sumW_cons (x : Str × Nat × Nat) (l : List (Str × Nat × Nat)) :
    sumW (x :: l) = x.2.1 + sumW l := by
  simp [sumW]

theorem noEsc_run (u : Nat) (r : Str) (h : u ≠ 0x1B) : matchAnsiRun (u :: r) = none := by
  have hseq : matchAnsiSeq (u :: r) = none := by
    rw [matchAnsiSeq.eq_def]
    split
    next rest heq =>
      have hx : u = 0x1B := by injection heq
      exact absurd hx h
    next => rfl
  rw [matchAnsiRun]
  rw [show (u :: r).length = r.length + 1 from rfl]
  rw [matchAnsiRunAux, hseq]

theorem append_singleton_cases {α : Type} (old : List α) (x : α) (pre : List α) (sg : α)
    (suf : List α) (h : old ++ [x] = pre ++ sg :: suf) :
    (suf = [] ∧ pre = old ∧ sg = x) ∨
    (∃ suf', suf = suf' ++ [x] ∧ old = pre ++ sg :: suf') := by
  rcases List.eq_nil_or_concat suf with rfl | ⟨suf', a, rfl⟩
  · left
    have h2 : old ++ [x] = pre ++ [sg] := h
    have h3 := List.append_inj' h2 (by rfl)
    refine ⟨rfl, h3.1.symm, ?_⟩
    have h4 := h3.2
    simp at h4
    exact h4.symm
  · right
    have h2 : old ++ [x] = (pre ++ sg :: suf') ++ [a] := by
      rw [h]
      simp
    have h3 := List.append_inj' h2 (by rfl)
    have ha : a = x := by
      have h4 := h3.2
      simp at h4
      exact h4.symm
    refine ⟨suf', ?_, h3.1⟩
    rw [List.concat_eq_append, ha]

theorem segBoundary_shift (A A' B : Str) (x : Str × Nat × Nat)
    (h : segs A = x :: segs A') (hb : SegBoundaryOk A B) : SegBoundaryOk A' B := by
  intro pre sg a hseg hu
  exact hb (x :: pre) sg a (by rw [h, hseg]; rfl) hu

theorem segs_single_eq (u : Nat) (hsu : ¬ isSurrogate u = true) :
    ∃ w, segs [u] = [([u], w, u)] := by
  simp only [segs]
  split_ifs <;> first
    | exact absurd (by assumption) hsu
    | exact ⟨_, rfl⟩

theorem segs_append : ∀ (A B : Str), SegBoundaryOk A B → segs (A ++ B) = segs A ++ segs B := by
  intro A
  induction A using segs.induct with
  | case1 => intro B hb; simp [segs]
  | case2 u hsu =>
    intro B hb
    have hseg : segs [u] = [([u], 2, u)] := by
      simp [segs, hsu]
    have hB := (hb [] ([u], 2, u) u (by rw [hseg]; rfl) rfl).1 hsu
    subst hB
    simp [segs]
  | case3 u hsu hcc =>
    intro B hb
    cases B with
    | nil => simp [segs]
    | cons b B' =>
      have hseg : segs [u] = [([u], 0, u)] := by
        simp [segs, hsu, hcc]
      have hnm : ¬ (isHighUnit u ∧ isLowUnit b) := by
        rintro ⟨hh, hl⟩
        have hz := (hb [] ([u], 0, u) u (by rw [hseg]; rfl) rfl).2 hh b rfl
        rw [hz] at hl
        cases hl
      have hcp : codePointAt (u :: b :: B') = u := by
        rw [codePointAt_cons_cons, if_neg hnm]
      show segs (u :: b :: B') = segs [u] ++ segs (b :: B')
      rw [hseg]
      simp only [segs, hcp]
      simp [hsu, hcc]
  | case4 u hsu hcc hfw =>
    intro B hb
    cases B with
    | nil => simp [segs]
    | cons b B' =>
      have hseg : segs [u] = [([u], 2, u)] := by
        simp [segs, hsu, hcc, hfw]
      have hnm : ¬ (isHighUnit u ∧ isLowUnit b) := by
        rintro ⟨hh, hl⟩
        have hz := (hb [] ([u], 2, u) u (by rw [hseg]; rfl) rfl).2 hh b rfl
        rw [hz] at hl
        cases hl
      have hcp : codePointAt (u :: b :: B') = u := by
        rw [codePointAt_cons_cons, if_neg hnm]
      show segs (u :: b :: B') = segs [u] ++ segs (b :: B')
      rw [hseg]
      simp only [segs, hcp]
      simp [hsu, hcc, hfw]
  | case5 u hsu hcc hfw =>
    intro B hb
    cases B with
    | nil => simp [segs]
    | cons b B' =>
      have hseg : segs [u] = [([u], 1, u)] := by
        simp [segs, hsu, hcc, hfw]
      have hnm : ¬ (isHighUnit u ∧ isLowUnit b) := by
        rintro ⟨hh, hl⟩
        have hz := (hb [] ([u], 1, u) u (by rw [hseg]; rfl) rfl).2 hh b rfl
        rw [hz] at hl
        cases hl
      have hcp : codePointAt (u :: b :: B') = u := by
        rw [codePointAt_cons_cons, if_neg hnm]
      show segs (u :: b :: B') = segs [u] ++ segs (b :: B')
      rw [hseg]
      simp only [segs, hcp]
      simp [hsu, hcc, hfw]
  | case6 u v tail cp hsur ih =>
    intro B hb
    have hsur2 : isSurrogate (codePointAt (u :: v :: tail)) = true := hsur
    have hcp : codePointAt (u :: v :: (tail ++ B)) = codePointAt (u :: v :: tail) := rfl
    have hsegA : segs (u :: v :: tail) =
        ([u, v], 2, codePointAt (u :: v :: tail)) :: segs tail := by
      simp only [segs, hsur2, if_true]
    show segs (u :: v :: (tail ++ B)) = segs (u :: v :: tail) ++ segs B
    rw [hsegA]
    have hstep : segs (u :: v :: (tail ++ B)) =
        ([u, v], 2, codePointAt (u :: v :: tail)) :: segs (tail ++ B) := by
      simp only [segs, hcp, hsur2, if_true]
    rw [hstep, ih B (segBoundary_shift _ tail B _ hsegA hb)]
    rfl
  | case7 u v tail cp hsur hcc ih =>
    intro B hb
    have hsur2 : ¬ isSurrogate (codePointAt (u :: v :: tail)) = true := hsur
    have hcc2 : (isCombining (codePointAt (u :: v :: tail)) ||
        isControl (codePointAt (u :: v :: tail))) = true := hcc
    have hcp : codePointAt (u :: v :: (tail ++ B)) = codePointAt (u :: v :: tail) := rfl
    have hsegA : segs (u :: v :: tail) =
        ([u], 0, codePointAt (u :: v :: tail)) :: segs (v :: tail) := by
      simp only [segs]
      simp [hsur2, hcc2]
    show segs (u :: v :: (tail ++ B)) = segs (u :: v :: tail) ++ segs B
    rw [hsegA]
    have hstep : segs (u :: v :: (tail ++ B)) =
        ([u], 0, codePointAt (u :: v :: tail)) :: segs (v :: (tail ++ B)) := by
      simp only [segs, hcp]
      simp [hsur2, hcc2]
    rw [hstep]
    have hih := ih B (segBoundary_shift _ (v :: tail) B _ hsegA hb)
    simp only [List.cons_append] at hih
    rw [hih]
    rfl
  | case8 u v tail cp hsur hcc hfw ih =>
    intro B hb
    have hsur2 : ¬ isSurrogate (codePointAt (u :: v :: tail)) = true := hsur
    have hcc2 : ¬ (isCombining (codePointAt (u :: v :: tail)) ||
        isControl (codePointAt (u :: v :: tail))) = true := hcc
    have hfw2 : isFullwidth (codePointAt (u :: v :: tail)) = true := hfw
    have hcp : codePointAt (u :: v :: (tail ++ B)) = codePointAt (u :: v :: tail) := rfl
    have hsegA : segs (u :: v :: tail) =
        ([u], 2, codePointAt (u :: v :: tail)) :: segs (v :: tail) := by
      simp only [segs]
      simp [hsur2, hcc2, hfw2]
    show segs (u :: v :: (tail ++ B)) = segs (u :: v :: tail) ++ segs B
    rw [hsegA]
    have hstep : segs (u :: v :: (tail ++ B)) =
        ([u], 2, codePointAt (u :: v :: tail)) :: segs (v :: (tail ++ B)) := by
      simp only [segs, hcp]
      simp [hsur2, hcc2, hfw2]
    rw [hstep]
    have hih := ih B (segBoundary_shift _ (v :: tail) B _ hsegA hb)
    simp only [List.cons_append] at hih
    rw [hih]
    rfl
  | case9 u v tail cp hsur hcc hfw ih =>
    intro B hb
    have hsur2 : ¬ isSurrogate (codePointAt (u :: v :: tail)) = true := hsur
    have hcc2 : ¬ (isCombining (codePointAt (u :: v :: tail)) ||
        isControl (codePointAt (u :: v :: tail))) = true := hcc
    have hfw2 : ¬ isFullwidth (codePointAt (u :: v :: tail)) = true := hfw
    have hcp : codePointAt (u :: v :: (tail ++ B)) = codePointAt (u :: v :: tail) := rfl
    have hsegA : segs (u :: v :: tail) =
        ([u], 1, codePointAt (u :: v :: tail)) :: segs (v :: tail) := by
      simp only [segs]
      simp [hsur2, hcc2, hfw2]
    show segs (u :: v :: (tail ++ B)) = segs (u :: v :: tail) ++ segs B
    rw [hsegA]
    have hstep : segs (u :: v :: (tail ++ B)) =
        ([u], 1, codePointAt (u :: v :: tail)) :: segs (v :: (tail ++ B)) := by
      simp only [segs, hcp]
      simp [hsur2, hcc2, hfw2]
    rw [hstep]
    have hih := ih B (segBoundary_shift _ (v :: tail) B _ hsegA hb)
    simp only [List.cons_append] at hih
    rw [hih]
    rfl


theorem normalizeLB_id (L : Str)
    (h : ∀ u ∈ L, u ≠ 0x0D ∧ u ≠ 0x85 ∧ u ≠ 0x2028 ∧ u ≠ 0x2029) :
    normalizeLB L = L := by
  induction L using normalizeLB.induct with
  | case1 rest ih =>
    exact absurd rfl (h 0x0D (by simp)).1
  | case2 u rest hne ih =>
    rw [normalizeLB]
    case x_1 => exact hne
    have hu := h u (by simp)
    rw [if_neg (by tauto)]
    rw [ih (fun x hx => h x (by simp [hx]))]
  | case3 => rfl

theorem normalizeLB_noET (s : Str) (h : ∀ u ∈ s, u ≠ 0x1B) : NoET (normalizeLB s) := by
  induction s using normalizeLB.induct with
  | case1 rest ih =>
    rw [normalizeLB]
    intro u hu
    rcases List.mem_cons.mp hu with rfl | hu
    · refine ⟨by omega, by omega, by omega, by omega, by omega⟩
    · exact ih (fun x hx => h x (by simp [hx])) u hu
  | case2 u rest hne ih =>
    rw [normalizeLB]
    case x_1 => exact hne
    intro x hx
    rcases List.mem_cons.mp hx with rfl | hx
    · split_ifs with hc
      · refine ⟨by omega, by omega, by omega, by omega, by omega⟩
      · have hu := h u (by simp)
        push_neg at hc
        exact ⟨hu, hc.1, hc.2.1, hc.2.2⟩
    · exact ih (fun y hy => h y (by simp [hy])) x hx
  | case3 =>
    intro u hu
    cases hu


theorem classify_rest_len (u : Nat) (rest : Str) :
    (classify u rest).2.2.length ≤ rest.length := by
  simp only [classify]
  split_ifs <;> simp

theorem charStep_plain (w : Nat) (st : BreakState) (u : Nat) (rest : Str)
    (hnl : ¬ codePointAt (u :: rest) = 0x0A)
    (hov : ¬ w < st.lineWidth + (classify u rest).2.1)
    (hdash : ¬ (w ≤ st.lineWidth + (classify u rest).2.1 ∧ (classify u rest).2.2 ≠ [] ∧
      isBreakingDash (codePointAt (u :: rest)) = true)) :
    charStep ⟨w, 0, false⟩ st u rest =
      ({ st with
          lineWidth := st.lineWidth + (classify u rest).2.1
          line := st.line ++ (classify u rest).1 }, (classify u rest).2.2) := by
  simp only [charStep]
  rw [if_neg hnl]
  rcases hcl : classify u rest with ⟨seg, sw, rest'⟩
  rw [hcl] at hov hdash
  dsimp only at hov hdash ⊢
  have hbc : breakCheck ⟨w, 0, false⟩ st (codePointAt (u :: rest)) seg sw = (st, seg, sw) := by
    simp only [breakCheck]
    rw [if_neg (by exact hov)]
  rw [hbc]
  dsimp only
  rw [if_neg (by exact hdash)]

theorem loop_stable (w : Nat) :
    ∀ (sl : List (Str × Nat × Nat)) (X : Str) (st : BreakState) (fuel : Nat),
      segs X = sl → X.length < fuel →
      (∀ u ∈ X, u ≠ 0x1B) →
      (∀ sg ∈ sl, sg.2.2 ≠ 0x0A) →
      st.bgUnclosed = [] →
      (∀ pre sg suf, sl = pre ++ sg :: suf →
        st.lineWidth + (sumW pre + sg.2.1) ≤ w ∧
        (suf ≠ [] → w ≤ st.lineWidth + (sumW pre + sg.2.1) →
          isBreakingDash sg.2.2 = false)) →
      loop ⟨w, 0, false⟩ fuel st X =
        st.lines ++ [(st.line ++ X, st.lineWidth + sumW sl)] := by
  intro sl
  induction sl with
  | nil =>
    intro X st fuel hseg hfuel hesc hnl hbg hsum
    have hX : X = [] := (segs_nil_iff X).mp hseg
    subst hX
    obtain ⟨f, rfl⟩ : ∃ f, fuel = f + 1 := ⟨fuel - 1, by omega⟩
    rw [loop]
    simp [push, hbg, sumW]
  | cons sg sl' ih =>
    intro X st fuel hseg hfuel hesc hnl hbg hsum
    cases X with
    | nil => simp [segs] at hseg
    | cons u X' =>
      obtain ⟨f, rfl⟩ : ∃ f, fuel = f + 1 := ⟨fuel - 1, by omega⟩
      rw [loop]
      rw [noEsc_run u X' (hesc u (by simp))]
      rw [segs_cons] at hseg
      injection hseg with hsg hsl'
      have hcp_eq : codePointAt (u :: X') = sg.2.2 := by rw [← hsg]
      have hw_eq : (classify u X').2.1 = sg.2.1 := by rw [← hsg]
      have hrest_eq : segs (classify u X').2.2 = sl' := hsl'
      have hnl1 : ¬ codePointAt (u :: X') = 0x0A := by
        rw [hcp_eq]
        exact hnl sg (by simp)
      have hsum0 := hsum [] sg sl' rfl
      have hov : ¬ w < st.lineWidth + (classify u X').2.1 := by
        rw [hw_eq]
        have := hsum0.1
        rw [sumW] at this
        simp at this
        omega
      have hdash : ¬ (w ≤ st.lineWidth + (classify u X').2.1 ∧
          (classify u X').2.2 ≠ [] ∧ isBreakingDash (codePointAt (u :: X')) = true) := by
        rintro ⟨h1, h2, h3⟩
        have hsl'ne : sl' ≠ [] := by
          intro hc
          rw [hc] at hrest_eq
          exact h2 ((segs_nil_iff _).mp hrest_eq)
        have hd := hsum0.2 hsl'ne (by
          rw [hw_eq] at h1
          have hz : sumW ([] : List (Str × Nat × Nat)) = 0 := rfl
          omega)
        rw [hcp_eq] at h3
        rw [hd] at h3
        cases h3
      rw [charStep_plain w st u X' hnl1 hov hdash]
      dsimp only
      rw [ih (classify u X').2.2
        { st with
            lineWidth := st.lineWidth + (classify u X').2.1
            line := st.line ++ (classify u X').1 } f hrest_eq
        (by
          have h1 := classify_rest_len u X'
          have h2 : (u :: X').length = X'.length + 1 := rfl
          omega)
        (by
          intro x hx
          apply hesc
          rw [← classify_decomp u X']
          exact List.mem_append.mpr (Or.inr hx))
        (by
          intro sg' hsg'
          exact hnl sg' (by simp [hsg']))
        hbg
        (by
          intro pre sg' suf hdec
          have hz := hsum (sg :: pre) sg' suf (by rw [hdec]; rfl)
          rw [sumW_cons] at hz
          dsimp only
          constructor
          · have := hz.1
            rw [hw_eq]
            omega
          · intro hsufne hwle
            apply hz.2 hsufne
            rw [hw_eq] at hwle
            omega)]
      dsimp only
      rw [List.append_assoc, classify_decomp u X']
      rw [sumW_cons, ← hw_eq]
      have harr : st.lineWidth + (classify u X').2.1 + sumW sl' =
          st.lineWidth + ((classify u X').2.1 + sumW sl') := by omega
      rw [harr]


theorem classify_head (u : Nat) (rest : Str) : (classify u rest).1.head? = some u := by
  simp only [classify]
  split_ifs <;> rfl

theorem classify_boundary (u : Nat) (r : Str) :
    ∀ a, (classify u r).1 = [a] →
      (isSurrogate a = true → (classify u r).2.2 = []) ∧
      (isHighUnit a = true → ∀ b, (classify u r).2.2.head? = some b → isLowUnit b = false) := by
  intro a ha
  by_cases hsur : isSurrogate (codePointAt (u :: r)) = true
  · cases r with
    | nil =>
      have hval : classify u [] = ([u], 2, ([] : Str)) := by
        simp [classify, hsur]
      rw [hval] at ha ⊢
      exact ⟨fun _ => rfl, fun _ b hb => by cases hb⟩
    | cons v r' =>
      have hval : classify u (v :: r') = ([u, v], 2, r') := by
        simp [classify, hsur]
      rw [hval] at ha
      cases ha
  · have hcp := classify_single_cp u r hsur
    have hval1 : (classify u r).1 = [u] := by
      simp only [classify]
      rw [if_neg hsur]
      split_ifs <;> rfl
    have hval2 : (classify u r).2.2 = r := by
      simp only [classify]
      rw [if_neg hsur]
      split_ifs <;> rfl
    rw [hval1] at ha
    injection ha with ha2
    subst ha2
    rw [hval2]
    constructor
    · intro hs
      rw [← hcp] at hs
      exact absurd hs hsur
    · intro hh b hb
      cases r with
      | nil => cases hb
      | cons v r' =>
        have hbv : b = v := by
          simp at hb
          omega
        subst hbv
        cases hlow : isLowUnit b
        · rfl
        · exfalso
          rw [codePointAt_cons_cons, if_pos ⟨hh, hlow⟩] at hcp
          simp only [isHighUnit, decide_eq_true_eq] at hh
          omega

theorem classify_mem (u : Nat) (rest : Str) :
    ∀ x ∈ (classify u rest).1, x ∈ u :: rest := by
  intro x hx
  rw [← classify_decomp u rest]
  exact List.mem_append.mpr (Or.inl hx)

theorem classify_rest_mem (u : Nat) (rest : Str) :
    ∀ x ∈ (classify u rest).2.2, x ∈ u :: rest := by
  intro x hx
  rw [← classify_decomp u rest]
  exact List.mem_append.mpr (Or.inr hx)

theorem segs_line_snoc (line : Str) (u : Nat) (r : Str)
    (hb : SegBoundaryOk line (u :: r)) :
    segs (line ++ (classify u r).1) =
      segs line ++ [((classify u r).1, (classify u r).2.1, codePointAt (u :: r))] := by
  rw [segs_append line (classify u r).1 ?bnd, classify_units]
  case bnd =>
    intro pre sg a hseg ha
    obtain ⟨c1, c2⟩ := hb pre sg a hseg ha
    constructor
    · intro hs
      exact absurd (c1 hs) (by simp)
    · intro hh b hhead
      apply c2 hh b
      have hhu : (classify u r).1.head? = some u := classify_head u r
      rw [hhu] at hhead
      injection hhead with hb2
      subst hb2
      rfl

theorem goodOut_snoc (w : Nat) (st : BreakState) (u : Nat) (r : Str)
    (hLI : LineInv w st (u :: r)) (hnoet : NoET (u :: r))
    (hnl : ¬ codePointAt (u :: r) = 0x0A)
    (hov : st.lineWidth + (classify u r).2.1 ≤ w) :
    GoodOut w (st.line ++ (classify u r).1) := by
  obtain ⟨h1, h2, h3, h4, h5⟩ := hLI
  have hsnoc := segs_line_snoc st.line u r h5
  refine ⟨?_, ?_, ?_⟩
  · intro x hx
    rcases List.mem_append.mp hx with hx | hx
    · exact h1 x hx
    · exact hnoet x (classify_mem u r x hx)
  · intro sg hsg
    rw [hsnoc] at hsg
    rcases List.mem_append.mp hsg with hsg | hsg
    · exact h2 sg hsg
    · rcases List.mem_singleton.mp hsg with rfl
      exact hnl
  · intro pre sg suf hdec
    rw [hsnoc] at hdec
    rcases append_singleton_cases _ _ _ _ _ hdec with ⟨hsuf, hpre, hsg⟩ | ⟨suf', hsuf, hold⟩
    · subst hsuf
      subst hpre
      subst hsg
      constructor
      · rw [h3] at hov
        dsimp only
        omega
      · intro hne _
        exact absurd rfl hne
    · subst hsuf
      have hc := h4 pre sg suf' hold
      constructor
      · exact hc.1
      · intro _ hwle
        cases hdash : isBreakingDash sg.2.2
        · rfl
        · exact absurd (hc.2 hwle hdash).2 (by simp)

theorem lineInv_snoc (w : Nat) (st : BreakState) (u : Nat) (r : Str)
    (hLI : LineInv w st (u :: r)) (hnoet : NoET (u :: r))
    (hnl : ¬ codePointAt (u :: r) = 0x0A)
    (hov : st.lineWidth + (classify u r).2.1 ≤ w)
    (hnd : w ≤ st.lineWidth + (classify u r).2.1 →
      isBreakingDash (codePointAt (u :: r)) = true → (classify u r).2.2 = []) :
    LineInv w { st with
        lineWidth := st.lineWidth + (classify u r).2.1
        line := st.line ++ (classify u r).1 } (classify u r).2.2 := by
  have hGO := goodOut_snoc w st u r hLI hnoet hnl hov
  obtain ⟨g1, g2, g3⟩ := hGO
  obtain ⟨h1, h2, h3, h4, h5⟩ := hLI
  have hsnoc := segs_line_snoc st.line u r h5
  refine ⟨g1, g2, ?_, ?_, ?_⟩
  · show st.lineWidth + (classify u r).2.1 = sumW (segs (st.line ++ (classify u r).1))
    rw [hsnoc, sumW_append, ← h3]
    simp [sumW]
  · intro pre sg suf hdec
    show sumW pre + sg.2.1 ≤ w ∧ _
    have hdec' : segs (st.line ++ (classify u r).1) = pre ++ sg :: suf := hdec
    refine ⟨(g3 pre sg suf hdec').1, ?_⟩
    intro hwle hdash
    rw [hsnoc] at hdec'
    rcases append_singleton_cases _ _ _ _ _ hdec' with ⟨hsuf, hpre, hsg⟩ | ⟨suf', hsuf, hold⟩
    · subst hsuf
      subst hpre
      subst hsg
      refine ⟨rfl, ?_⟩
      apply hnd
      · rw [h3]
        dsimp only at hwle
        omega
      · exact hdash
    · have hc := h4 pre sg suf' hold
      exact absurd (hc.2 hwle hdash).2 (by simp)
  · intro pre sg a hdec ha
    have hdec' : segs (st.line ++ (classify u r).1) = pre ++ [sg] := hdec
    rw [hsnoc] at hdec'
    have hsg : sg = ((classify u r).1, (classify u r).2.1, codePointAt (u :: r)) := by
      have h3' := List.append_inj' hdec'.symm (by rfl)
      have h4' := h3'.2
      simp at h4'
      exact h4'
    subst hsg
    exact classify_boundary u r a ha

theorem lineInv_empty (w : Nat) (st : BreakState) (rest : Str) (h1 : st.line = [])
    (h2 : st.lineWidth = 0) : LineInv w st rest := by
  refine ⟨?_, ?_, ?_, ?_, ?_⟩
  · intro x hx
    rw [h1] at hx
    cases hx
  · intro sg hsg
    rw [h1] at hsg
    simp [segs] at hsg
  · rw [h1, h2]
    rfl
  · intro pre sg suf hdec
    rw [h1] at hdec
    simp [segs] at hdec
  · intro pre sg a hdec ha
    rw [h1] at hdec
    simp [segs] at hdec

theorem charStep_newline (w : Nat) (st : BreakState) (u : Nat) (rest : Str)
    (hnl : codePointAt (u :: rest) = 0x0A) :
    charStep ⟨w, 0, false⟩ st u rest = (push st, rest) := by
  simp only [charStep]
  rw [if_pos hnl]

theorem charStep_noflow (w : Nat) (st : BreakState) (u : Nat) (rest : Str)
    (hnl : ¬ codePointAt (u :: rest) = 0x0A)
    (hov : ¬ w < st.lineWidth + (classify u rest).2.1) :
    charStep ⟨w, 0, false⟩ st u rest =
      (if w ≤ st.lineWidth + (classify u rest).2.1 ∧ (classify u rest).2.2 ≠ [] ∧
          isBreakingDash (codePointAt (u :: rest)) = true
        then push { st with
          lineWidth := st.lineWidth + (classify u rest).2.1
          line := st.line ++ (classify u rest).1 }
        else { st with
          lineWidth := st.lineWidth + (classify u rest).2.1
          line := st.line ++ (classify u rest).1 },
       (classify u rest).2.2) := by
  simp only [charStep]
  rw [if_neg hnl]
  rcases hcl : classify u rest with ⟨seg, sw, rest'⟩
  rw [hcl] at hov
  dsimp only at hov ⊢
  have hbc : breakCheck ⟨w, 0, false⟩ st (codePointAt (u :: rest)) seg sw = (st, seg, sw) := by
    simp only [breakCheck]
    rw [if_neg (by exact hov)]
  rw [hbc]

theorem charStep_overflow (w : Nat) (st : BreakState) (u : Nat) (rest : Str)
    (hnl : ¬ codePointAt (u :: rest) = 0x0A)
    (hov : w < st.lineWidth + (classify u rest).2.1) :
    charStep ⟨w, 0, false⟩ st u rest =
      (if w ≤ (push st).lineWidth + (classify u rest).2.1 ∧ (classify u rest).2.2 ≠ [] ∧
          isBreakingDash (codePointAt (u :: rest)) = true
        then push { push st with
          lineWidth := (push st).lineWidth + (classify u rest).2.1
          line := (push st).line ++ (classify u rest).1 }
        else { push st with
          lineWidth := (push st).lineWidth + (classify u rest).2.1
          line := (push st).line ++ (classify u rest).1 },
       (classify u rest).2.2) := by
  simp only [charStep]
  rw [if_neg hnl]
  rcases hcl : classify u rest with ⟨seg, sw, rest'⟩
  rw [hcl] at hov
  dsimp only at hov ⊢
  have hbc : breakCheck ⟨w, 0, false⟩ st (codePointAt (u :: rest)) seg sw =
      (push st, seg, sw) := by
    simp only [breakCheck]
    rw [if_pos (by exact hov)]
    have htf : ((false && isBreakingSpace (codePointAt (u :: rest)))) = false := by
      simp
    rw [htf]
    dsimp only [Bool.false_eq_true, if_false]
    rw [if_pos]
    · rfl
    · simp only [Bool.or_eq_true, decide_eq_true_eq]
      right
      push_cast
      omega
  rw [hbc]

theorem lineInv_goodOut (w : Nat) (st : BreakState) (rest : Str)
    (h : LineInv w st rest) : GoodOut w st.line := by
  obtain ⟨h1, h2, h3, h4, h5⟩ := h
  refine ⟨h1, h2, ?_⟩
  intro pre sg suf hdec
  have hc := h4 pre sg suf hdec
  refine ⟨hc.1, ?_⟩
  intro hne hwle
  cases hdash : isBreakingDash sg.2.2
  · rfl
  · exact absurd (hc.2 hwle hdash).1 hne

theorem push_lines_good (w : Nat) (st : BreakState) (hbg : st.bgUnclosed = [])
    (hprev : ∀ P ∈ st.lines, GoodOut w P.1) (hgood : GoodOut w st.line) :
    ∀ P ∈ (push st).lines, GoodOut w P.1 := by
  intro P hP
  simp only [push, hbg, List.isEmpty_nil, if_true, List.append_nil] at hP
  rcases List.mem_append.mp hP with h | h
  · exact hprev P h
  · rcases List.mem_singleton.mp h with rfl
    exact hgood

theorem push_state_empty (st : BreakState) (hbg : st.bgUnclosed = []) :
    (push st).line = [] ∧ (push st).lineWidth = 0 ∧ (push st).bgUnclosed = [] := by
  simp [push, hbg]

theorem loop_good (w : Nat) : ∀ (fuel : Nat) (st : BreakState) (rest : Str),
    2 ≤ w →
    rest.length < fuel →
    NoET rest →
    st.bgUnclosed = [] →
    (∀ P ∈ st.lines, GoodOut w P.1) →
    LineInv w st rest →
    ∀ P ∈ loop ⟨w, 0, false⟩ fuel st rest, GoodOut w P.1 := by
  intro fuel
  induction fuel with
  | zero =>
    intro st rest hw hlen
    exact absurd hlen (Nat.not_lt_zero _)
  | succ fuel ih =>
    intro st rest hw hlen hnoet hbg hprev hLI
    cases rest with
    | nil =>
      intro P hP
      simp only [loop] at hP
      exact push_lines_good w st hbg hprev (lineInv_goodOut w st [] hLI) P hP
    | cons u r =>
      have hu : u ≠ 0x1B := (hnoet u (by simp)).1
      have hrun := noEsc_run u r hu
      intro P hP
      simp only [loop, hrun] at hP
      have hlen2 : r.length < fuel := by
        simp only [List.length_cons] at hlen
        omega
      by_cases hnl : codePointAt (u :: r) = 0x0A
      · rw [charStep_newline w st u r hnl] at hP
        dsimp only at hP
        refine ih (push st) r hw hlen2 ?_ ?_ ?_ ?_ P hP
        · intro x hx
          exact hnoet x (by simp [hx])
        · exact (push_state_empty st hbg).2.2
        · exact push_lines_good w st hbg hprev (lineInv_goodOut w st _ hLI)
        · exact lineInv_empty w (push st) r (push_state_empty st hbg).1
            (push_state_empty st hbg).2.1
      · have hnoetc : NoET (u :: r) := hnoet
        have hnoet2 : NoET ((classify u r).2.2) := fun x hx =>
          hnoet x (classify_rest_mem u r x hx)
        have hlen3 : (classify u r).2.2.length < fuel := by
          have h1 := classify_rest_len u r
          omega
        by_cases hov : w < st.lineWidth + (classify u r).2.1
        · rw [charStep_overflow w st u r hnl hov] at hP
          dsimp only at hP
          have hpe := push_state_empty st hbg
          have hLIp : LineInv w (push st) (u :: r) :=
            lineInv_empty w (push st) (u :: r) hpe.1 hpe.2.1
          have hgp : ∀ P ∈ (push st).lines, GoodOut w P.1 :=
            push_lines_good w st hbg hprev (lineInv_goodOut w st _ hLI)
          have hswle : (push st).lineWidth + (classify u r).2.1 ≤ w := by
            rw [hpe.2.1]
            have h2 := classify_width_le u r
            omega
          by_cases hcond : w ≤ (push st).lineWidth + (classify u r).2.1 ∧
              (classify u r).2.2 ≠ [] ∧ isBreakingDash (codePointAt (u :: r)) = true
          · rw [if_pos hcond] at hP
            refine ih _ _ hw hlen3 hnoet2 ?_ ?_ ?_ P hP
            · simp [push, hbg]
            · exact push_lines_good w _ hpe.2.2 hgp
                (goodOut_snoc w (push st) u r hLIp hnoetc hnl hswle)
            · exact lineInv_empty w _ _ (by simp [push, hbg]) (by simp [push])
          · rw [if_neg hcond] at hP
            have hnd : w ≤ (push st).lineWidth + (classify u r).2.1 →
                isBreakingDash (codePointAt (u :: r)) = true → (classify u r).2.2 = [] := by
              intro h1 h2
              by_contra hne
              exact hcond ⟨h1, hne, h2⟩
            refine ih _ _ hw hlen3 hnoet2 ?_ ?_ ?_ P hP
            · exact hpe.2.2
            · exact hgp
            · exact lineInv_snoc w (push st) u r hLIp hnoetc hnl hswle hnd
        · have hswle : st.lineWidth + (classify u r).2.1 ≤ w := by omega
          rw [charStep_noflow w st u r hnl hov] at hP
          dsimp only at hP
          by_cases hcond : w ≤ st.lineWidth + (classify u r).2.1 ∧
              (classify u r).2.2 ≠ [] ∧ isBreakingDash (codePointAt (u :: r)) = true
          · rw [if_pos hcond] at hP
            refine ih _ _ hw hlen3 hnoet2 ?_ ?_ ?_ P hP
            · simp [push, hbg]
            · exact push_lines_good w _ hbg hprev
                (goodOut_snoc w st u r hLI hnoetc hnl hswle)
            · exact lineInv_empty w _ _ (by simp [push, hbg]) (by simp [push])
          · rw [if_neg hcond] at hP
            have hnd : w ≤ st.lineWidth + (classify u r).2.1 →
                isBreakingDash (codePointAt (u :: r)) = true → (classify u r).2.2 = [] := by
              intro h1 h2
              by_contra hne
              exact hcond ⟨h1, hne, h2⟩
            refine ih _ _ hw hlen3 hnoet2 ?_ ?_ ?_ P hP
            · exact hbg
            · exact hprev
            · exact lineInv_snoc w st u r hLI hnoetc hnl hswle hnd

theorem validWidth_ge2 (mw : JSNum) (w : Nat) (h : validWidth mw = some w) : 2 ≤ w := by
  cases mw with
  | int n =>
    simp only [validWidth] at h
    split at h
    · cases h
    · injection h with h2
      subst h2
      rename_i hn
      omega
  | posInf => cases h
  | negInf => cases h
  | nan => cases h
  | frac => cases h

theorem flatten_singletons {α : Type} (l : List α) :
    (l.map (fun x => [x])).flatten = l := by
  induction l with
  | nil => rfl
  | cons a t ih => simp [ih]

theorem breakLine_fixed (L : Str) (mw : JSNum) (w : Nat)
    (hval : validWidth mw = some w) (hgood : GoodOut w L) :
    breakLine L mw none = [L] := by
  obtain ⟨g1, g2, g3⟩ := hgood
  simp only [breakLine, hval, Option.getD_none]
  dsimp only [defaultOpts]
  by_cases hL : L = []
  · rw [if_pos hL, hL]
  · rw [if_neg hL]
    have hid : normalizeLB L = L := normalizeLB_id L
      (fun u hu => ⟨(g1 u hu).2.1, (g1 u hu).2.2.1, (g1 u hu).2.2.2.1, (g1 u hu).2.2.2.2⟩)
    rw [hid]
    have hdash : ∀ pre sg suf, segs L = pre ++ sg :: suf →
        initState.lineWidth + (sumW pre + sg.2.1) ≤ w ∧
        (suf ≠ [] → w ≤ initState.lineWidth + (sumW pre + sg.2.1) →
          isBreakingDash sg.2.2 = false) := by
      intro pre sg suf hdec
      have hc := g3 pre sg suf hdec
      have h0 : initState.lineWidth = 0 := rfl
      refine ⟨by omega, ?_⟩
      intro hne hwle
      exact hc.2 hne (by omega)
    rw [loop_stable w (segs L) L initState (L.length + 1) rfl (by omega)
      (fun u hu => (g1 u hu).1) g2 rfl hdash]
    simp [initState]

/-- Claim C5, counterexample: the idempotence claim fails as stated:
re-wrapping the output of `breakLine("ESC[41mab-cd", 3)` at width 3
splits the reseeded background tokens of the second line into an extra
line. -/
theorem c5_counterexample :
    breakLines (breakLine dashBgU (JSNum.int 3) none) (JSNum.int 3) ≠
      breakLine dashBgU (JSNum.int 3) none := by decide

/-- Claim C5, amended: on escape-free input, wrapping is idempotent at
a fixed width: re-applying `breakLine` to every output line at the same
width and flattening (`breakLines`) returns the lines unchanged. -/
theorem c5_amended (s : Str) (mw : JSNum) (hesc : ∀ u ∈ s, u ≠ 0x1B) :
    breakLines (breakLine s mw none) mw = breakLine s mw none := by
  cases hval : validWidth mw with
  | none => simp [breakLines, breakLine, hval]
  | some w =>
    have hw2 := validWidth_ge2 mw w hval
    by_cases hs : s = []
    · subst hs
      simp [breakLines, breakLine, hval]
    · have hgood : ∀ L ∈ breakLine s mw none, GoodOut w L := by
        intro L hL
        simp only [breakLine, hval, Option.getD_none] at hL
        dsimp only [defaultOpts] at hL
        rw [if_neg hs] at hL
        rcases List.mem_map.mp hL with ⟨P, hP, rfl⟩
        refine loop_good w ((normalizeLB s).length + 1) initState (normalizeLB s) hw2
          (by omega) (normalizeLB_noET s hesc) rfl ?_ ?_ P hP
        · intro Q hQ
          simp [initState] at hQ
        · exact lineInv_empty w initState (normalizeLB s) rfl rfl
      rw [breakLines]
      rw [List.map_congr_left (fun L hL => breakLine_fixed L mw w hval (hgood L hL))]
      exact flatten_singletons _

/-- Claim C5, witness: the amended idempotence instantiated on
"hello world" at width 5. -/
theorem c5_witness :
    (∀ u ∈ hwU, u ≠ 0x1B) ∧
    breakLines (breakLine hwU (JSNum.int 5) none) (JSNum.int 5) =
      breakLine hwU (JSNum.int 5) none :=
  ⟨by decide, c5_amended hwU (JSNum.int 5) (by decide)⟩

end Quale
